import Mathlib

/-!
ProjectBigInteger: arbitrary-precision signed decimal integers

A shallow embedding of `src/ProjectBigInteger/src/BigInteger.cpp` and the properties
proved about it.

* `std::vector<int> digits` is a `List Int`, most significant digit first;
* every exception of the library is a `std::invalid_argument`; `Err` records which
  `throw` statement raised it;
* the `for`/`while` loops whose trip count depends on the value of a `BigInteger`
  take a fuel argument, and `Outcome.outOfFuel` is returned when it is used up.
-/

namespace ProjectBigInteger

/-- The `throw std::invalid_argument(...)` statements of the library, one constructor each. -/
inductive Err where
  /-- "Cannot parse an empty string as an integer" -/
  | emptyString
  /-- "Cannot parse a non-digit character as an integer: 'c'" -/
  | nonDigit (c : Char)
  /-- "Cannot divide by zero" -/
  | divideByZero
  /-- "Cannot take the square root of a negative number" -/
  | sqrtOfNegative
  /-- "The number of iterations must be positive" -/
  | iterationsNotPositive
  deriving DecidableEq

/-- What a call does: it returns a value, it throws, or the fuel of the model ran out. -/
inductive Outcome (α : Type) where
  | ok (a : α)
  | thrown (e : Err)
  | outOfFuel
  deriving DecidableEq

/-- Sequencing of calls: an exception or an exhausted fuel ends the computation. -/
def Outcome.bind {α β : Type} (x : Outcome α) (f : α → Outcome β) : Outcome β :=
  match x with
  | .ok a => f a
  | .thrown e => .thrown e
  | .outOfFuel => .outOfFuel

instance : Monad Outcome where
  pure := Outcome.ok
  bind := Outcome.bind

/-- The class `BigInteger`: its two data members. -/
structure BigInteger where
  digits : List Int
  isNegative : Bool := false
  deriving DecidableEq

namespace BigInteger

/-- `padVectorWithZeroes(vec, requiredLen)`: every caller passes the maximum of two sizes, so
`requiredLen - vec.size()` does not wrap around. -/
def padVectorWithZeroes (vec : List Int) (requiredLen : Nat) : List Int :=
  List.replicate (requiredLen - vec.length) 0 ++ vec

/-- The loop of the string constructor: each character is checked and `digit - 48` is pushed. -/
def parseDigits : List Char → Outcome (List Int)
  | [] => .ok []
  | digit :: rest =>
    if digit < '0' || digit > '9' then .thrown (.nonDigit digit)
    else do
      let more ← parseDigits rest
      pure (((digit.toNat : Int) - 48) :: more)

/-- `BigInteger::BigInteger(const std::string& num)`. -/
def ofString (num : String) : Outcome BigInteger :=
  match num.data with
  | [] => .thrown .emptyString
  | firstChar :: rest =>
    if firstChar = '-' || firstChar = '+' then do
      let ds ← parseDigits rest
      pure { digits := ds, isNegative := decide (firstChar = '-') }
    else do
      let ds ← parseDigits (firstChar :: rest)
      pure { digits := ds, isNegative := false }

/-- The constant `ZERO = BigInteger("0")`. -/
def ZERO : BigInteger := { digits := [0], isNegative := false }
/-- The constant `ONE = BigInteger("1")`. -/
def ONE : BigInteger := { digits := [1], isNegative := false }
/-- The constant `TWO = BigInteger("2")`. -/
def TWO : BigInteger := { digits := [2], isNegative := false }
/-- The constant `NEGATIVE_ONE = BigInteger("-1")`. -/
def NEGATIVE_ONE : BigInteger := { digits := [1], isNegative := true }

/-- Unary `operator-()`: a copy with the sign flag inverted. -/
def neg (a : BigInteger) : BigInteger := { a with isNegative := !a.isNegative }

/-- `operator==`. -/
def eq (a other : BigInteger) : Bool :=
  decide (a.digits.length = other.digits.length)
    && (a.isNegative == other.isNegative)
    && decide (a.digits = other.digits)

/-- `operator!=`. -/
def ne (a other : BigInteger) : Bool := !(eq a other)

/-- The digit loop of `operator>` taken when both operands are negative. -/
def gtLoopNegative : List Int → List Int → Bool
  | dig1 :: rest1, dig2 :: rest2 =>
    if dig1 > dig2 then false
    else if dig1 < dig2 then true
    else gtLoopNegative rest1 rest2
  | _, _ => false

/-- The digit loop of `operator>` taken when both operands are non-negative. -/
def gtLoopPositive : List Int → List Int → Bool
  | dig1 :: rest1, dig2 :: rest2 =>
    if dig1 > dig2 then true
    else if dig1 < dig2 then false
    else gtLoopPositive rest1 rest2
  | _, _ => false

/-- `operator>`. -/
def gt (a other : BigInteger) : Bool :=
  if a.isNegative != other.isNegative then other.isNegative
  else
    let longestLen := max a.digits.length other.digits.length
    let digits1 := padVectorWithZeroes a.digits longestLen
    let digits2 := padVectorWithZeroes other.digits longestLen
    if a.isNegative then gtLoopNegative digits1 digits2
    else gtLoopPositive digits1 digits2

/-- `operator>=`. -/
def ge (a other : BigInteger) : Bool := gt a other || eq a other

/-- `operator<`. -/
def lt (a other : BigInteger) : Bool := !(ge a other)

/-- `operator<=`. -/
def le (a other : BigInteger) : Bool := !(gt a other)

/-- `BigInteger::abs`. -/
def abs (a : BigInteger) : BigInteger := if ge a ZERO then a else neg a

/-- `(char) (item + '0')`: the character of a digit, the sum reduced to one byte. -/
def digitChar (item : Int) : Char := Char.ofNat ((item + 48) % 256).toNat

/-- `operator std::string`: a `-` for a set sign flag, then the digits in stored order. -/
def toString (a : BigInteger) : String :=
  String.mk ((if a.isNegative then [ '-' ] else []) ++ a.digits.map digitChar)

/-- `operator!`. -/
def not (a : BigInteger) : Bool :=
  decide (a.digits.length = 1) && decide (a.digits.head? = some 0)

/-- The digit loop of `operator+`. The two arguments are the padded vectors read from index
`stopAt - 1` down to `0`, that is, reversed; the result is `resultDigits` in `push_back`
order together with the carry left by the last pass. -/
def addLoop (multiplier : Int) : List Int → List Int → Int → List Int × Int
  | item1 :: rest1, item2 :: rest2, carry =>
    let adding := item1 + multiplier * (item2 + carry)
    let step : Int × Int :=
      if adding < 0 || adding > 9 then
        (1, if adding > 9 then adding - 10 else adding + 10)
      else (0, adding)
    let tail := addLoop multiplier rest1 rest2 step.1
    (step.2 :: tail.1, tail.2)
  | _, _, carry => ([], carry)

/-- Removal of zeroes from the front of a list while more than one element is left: the
`while` loop of `operator+` seen from the end of `resultDigits` (see `popBackZeroes`). -/
def dropFrontZeroes : List Int → List Int
  | 0 :: d :: rest => dropFrontZeroes (d :: rest)
  | ds => ds

/-- `while (resultDigits.size() > 1 && resultDigits.back() == 0) resultDigits.pop_back();` -/
def popBackZeroes (resultDigits : List Int) : List Int :=
  (dropFrontZeroes resultDigits.reverse).reverse

/-- `operator+`. -/
def add (a other : BigInteger) : Outcome BigInteger :=
  let resultIsNegative₀ : Bool := a.isNegative && other.isNegative
  let stopAt := max a.digits.length other.digits.length
  -- (multiplier, resultIsNegative, digitsFirst, digitsSecond)
  let choice : Int × Bool × List Int × List Int :=
    if a.isNegative != other.isNegative then
      if other.isNegative then
        if gt (neg a) other then (-1, true, other.digits, a.digits)
        else (-1, resultIsNegative₀, a.digits, other.digits)
      else
        if gt (neg a) other then (-1, true, a.digits, other.digits)
        else (-1, resultIsNegative₀, other.digits, a.digits)
    else (1, resultIsNegative₀, a.digits, other.digits)
  let multiplier := choice.1
  let resultIsNegative := choice.2.1
  let digitsFirst := padVectorWithZeroes choice.2.2.1 stopAt
  let digitsSecond := padVectorWithZeroes choice.2.2.2 stopAt
  let looped := addLoop multiplier digitsFirst.reverse digitsSecond.reverse 0
  let resultDigits := if looped.2 = 1 then looped.1 ++ [1] else looped.1
  let resultDigits := (popBackZeroes resultDigits).reverse
  let resultString := String.mk (resultDigits.map digitChar)
  do
    let result ← ofString resultString
    pure { result with isNegative := resultIsNegative }

/-- The part of `operator+` that follows the choice of `multiplier`, `resultIsNegative`,
`digitsFirst` and `digitsSecond`, as a function of these four (used to reason about `add`,
which is equal to it by unfolding). -/
def addTail (multiplier : Int) (resultIsNegative : Bool) (first second : List Int)
    (stopAt : Nat) : Outcome BigInteger :=
  let digitsFirst := padVectorWithZeroes first stopAt
  let digitsSecond := padVectorWithZeroes second stopAt
  let looped := addLoop multiplier digitsFirst.reverse digitsSecond.reverse 0
  let resultDigits := if looped.2 = 1 then looped.1 ++ [1] else looped.1
  let resultDigits := (popBackZeroes resultDigits).reverse
  let resultString := String.mk (resultDigits.map digitChar)
  do
    let result ← ofString resultString
    pure { result with isNegative := resultIsNegative }

/-- Binary `operator-`. -/
def sub (a other : BigInteger) : Outcome BigInteger := add a (neg other)

/-- The loop `for (auto i = ZERO; i < multiplier; i++) result += *this;` of `operator*`. -/
def mulLoop (self multiplier : BigInteger) : Nat → BigInteger → BigInteger → Outcome BigInteger
  | 0, _, _ => .outOfFuel
  | fuel + 1, i, result =>
    if lt i multiplier then do
      let result ← add result self
      let i ← add i ONE
      mulLoop self multiplier fuel i result
    else pure result

/-- `operator*`. -/
def mul (fuel : Nat) (a other : BigInteger) : Outcome BigInteger := do
  let multiplier := abs other
  let result ← mulLoop a multiplier fuel ZERO ZERO
  pure { result with isNegative := a.isNegative != other.isNegative }

/-- The loop `while (remainder_ >= divisor) { remainder_ -= divisor; quotient++; }`. -/
def divLoop (divisor : BigInteger) : Nat → BigInteger → BigInteger → Outcome BigInteger
  | 0, _, _ => .outOfFuel
  | fuel + 1, remainder_, quotient =>
    if ge remainder_ divisor then do
      let remainder_ ← sub remainder_ divisor
      let quotient ← add quotient ONE
      divLoop divisor fuel remainder_ quotient
    else pure quotient

/-- `operator/`. -/
def div (fuel : Nat) (a other : BigInteger) : Outcome BigInteger :=
  if eq other ZERO then .thrown .divideByZero
  else
    let number := abs a
    let divisor := abs other
    let resultIsNegative : Bool := a.isNegative != other.isNegative
    if lt number divisor then pure ZERO
    else if eq divisor ONE then pure (if resultIsNegative then neg a else a)
    else if eq number divisor then pure (if resultIsNegative then NEGATIVE_ONE else ONE)
    else do
      let quotient ← divLoop divisor fuel a ZERO
      pure (if resultIsNegative then { quotient with isNegative := true } else quotient)

/-- The loop `while (result > divisor) { result -= divisor; }` of `operator%`. -/
def modLoop (divisor : BigInteger) : Nat → BigInteger → Outcome BigInteger
  | 0, _ => .outOfFuel
  | fuel + 1, result =>
    if gt result divisor then do
      let result ← sub result divisor
      modLoop divisor fuel result
    else pure result

/-- `operator%`. -/
def mod (fuel : Nat) (a other : BigInteger) : Outcome BigInteger :=
  if eq other ZERO then .thrown .divideByZero
  else
    let number := abs a
    let divisor := abs other
    let resultIsNegative : Bool := a.isNegative != other.isNegative
    if lt number divisor then pure (if resultIsNegative then neg number else number)
    else do
      let result ← modLoop divisor fuel a
      pure { result with isNegative := resultIsNegative }

/-- The loop `for (auto i = ZERO; i < exponent; i++) result *= *this;` of `pow`; `mulFuel` is
the fuel handed to each multiplication. -/
def powLoop (self exponent : BigInteger) (mulFuel : Nat) :
    Nat → BigInteger → BigInteger → Outcome BigInteger
  | 0, _, _ => .outOfFuel
  | fuel + 1, i, result =>
    if lt i exponent then do
      let result ← mul mulFuel result self
      let i ← add i ONE
      powLoop self exponent mulFuel fuel i result
    else pure result

/-- `BigInteger::pow`. -/
def pow (fuel : Nat) (a exponent : BigInteger) : Outcome BigInteger :=
  if lt exponent ZERO then pure ZERO
  else if eq exponent ZERO then pure ONE
  else if eq exponent ONE then pure a
  else powLoop a exponent fuel fuel ZERO ONE

/-- The loop `for (unsigned int i = 0; i < iterations; i++)` of `sqrt`, whose body is
`current = (current + original / current) / TWO;`, by recursion on the number of passes left. -/
def sqrtLoop (fuel : Nat) (original : BigInteger) : Nat → BigInteger → Outcome BigInteger
  | 0, current => pure current
  | passes + 1, current => do
    let q ← div fuel original current
    let s ← add current q
    let current ← div fuel s TWO
    sqrtLoop fuel original passes current

/-- `BigInteger::sqrt`; `fuel` is the fuel handed to each division. -/
def sqrt (fuel : Nat) (a : BigInteger) (iterations : Nat) : Outcome BigInteger :=
  if lt a ZERO then .thrown .sqrtOfNegative
  else if eq a ZERO then pure ZERO
  else if iterations = 0 then .thrown .iterationsNotPositive
  else sqrtLoop fuel a iterations a

/-- The default argument of `sqrt(unsigned int iterations = 15)`. -/
def defaultIterations : Nat := 15

/-! ## Decimal strings, in the words of the specification -/

/-- An ASCII digit `0`-`9`. -/
def isDecimalDigit (c : Char) : Bool := decide ('0' ≤ c) && decide (c ≤ '9')

/-- A valid decimal string: an optional leading `+` or `-`, then one or more digits. -/
def ValidDecimal (s : String) : Bool :=
  match s.data with
  | [] => false
  | c :: rest =>
    if c = '+' || c = '-' then !rest.isEmpty && rest.all isDecimalDigit
    else (c :: rest).all isDecimalDigit

/-- Redundant leading zeros stripped from a digit string, down to a single `0`. -/
def stripLeadingZeros : List Char → List Char
  | '0' :: c :: rest => stripLeadingZeros (c :: rest)
  | cs => cs

/-- The canonical string the specification expects for a valid decimal string: leading zeros
stripped, a leading `+` dropped, and a zero value rendered without a sign. -/
def expectedCanonical (s : String) : String :=
  match s.data with
  | '-' :: rest =>
    if stripLeadingZeros rest = [ '0' ] then String.mk [ '0' ]
    else String.mk ('-' :: stripLeadingZeros rest)
  | '+' :: rest => String.mk (stripLeadingZeros rest)
  | cs => String.mk (stripLeadingZeros cs)

/-- A decimal string with a leading `+` dropped and nothing else changed. -/
def dropLeadingPlus (s : String) : String :=
  match s.data with
  | '+' :: rest => String.mk rest
  | _ => s

/-! ## The integers the representation denotes -/

/-- The number a most-significant-first digit sequence denotes. -/
def magnitude (ds : List Int) : Int := ds.foldl (fun acc d => 10 * acc + d) 0

/-- The integer value of a `BigInteger`: the magnitude, negated when the sign flag is set. -/
def toInt (a : BigInteger) : Int :=
  if a.isNegative then -(magnitude a.digits) else magnitude a.digits

/-- The digit sequence is non-empty and each digit is between 0 and 9. -/
def DigitsOk (ds : List Int) : Prop := ds ≠ [] ∧ ∀ d ∈ ds, 0 ≤ d ∧ d ≤ 9

/-- The representation invariant: digits non-empty, each 0-9, no leading zero unless the digits
are exactly `[0]`, and the sign flag false when the digits are `[0]`. -/
def Normalized (a : BigInteger) : Prop :=
  DigitsOk a.digits ∧ (a.digits.head? = some 0 → a.digits = [0]) ∧
    (a.digits = [0] → a.isNegative = false)

instance (ds : List Int) : Decidable (DigitsOk ds) :=
  inferInstanceAs (Decidable (ds ≠ [] ∧ ∀ d ∈ ds, 0 ≤ d ∧ d ≤ 9))

instance (a : BigInteger) : Decidable (Normalized a) :=
  inferInstanceAs (Decidable (DigitsOk a.digits ∧ (a.digits.head? = some 0 → a.digits = [0]) ∧
    (a.digits = [0] → a.isNegative = false)))

/-! ## The number of passes of the subtraction loops -/

end BigInteger


/-! ## Sequencing -/

theorem Outcome.ok_bind {α β : Type} (a : α) (f : α → Outcome β) :
    (Outcome.ok a >>= f) = f a := rfl

theorem Outcome.pure_eq {α : Type} (a : α) : (pure a : Outcome α) = Outcome.ok a := rfl

/-! ## Digit sequences and the numbers they denote -/

namespace BigInteger

theorem magnitude_nil : magnitude [] = 0 := rfl

theorem magnitude_snoc (ds : List Int) (d : Int) :
    magnitude (ds ++ [d]) = 10 * magnitude ds + d := by
  simp [magnitude, List.foldl_append]

theorem magnitude_cons (d : Int) (ds : List Int) :
    magnitude (d :: ds) = d * 10 ^ ds.length + magnitude ds := by
  induction ds using List.reverseRecOn with
  | nil => simp [magnitude]
  | append_singleton l x ih =>
    rw [← List.cons_append, magnitude_snoc, magnitude_snoc, ih]
    simp only [List.length_append, List.length_singleton, pow_succ]
    ring

theorem magnitude_reverse_cons (d : Int) (ds : List Int) :
    magnitude (d :: ds).reverse = 10 * magnitude ds.reverse + d := by
  rw [List.reverse_cons, magnitude_snoc]

theorem magnitude_bounds (ds : List Int) (h : ∀ d ∈ ds, 0 ≤ d ∧ d ≤ 9) :
    0 ≤ magnitude ds ∧ magnitude ds < 10 ^ ds.length := by
  induction ds with
  | nil => simp [magnitude]
  | cons x t ih =>
    have hx := h x (List.mem_cons_self x t)
    have ht := ih (fun d hd => h d (List.mem_cons_of_mem x hd))
    have hp : (0 : Int) < 10 ^ t.length := by positivity
    rw [magnitude_cons, List.length_cons, pow_succ]
    constructor
    · nlinarith [hx.1, ht.1]
    · nlinarith [hx.2, ht.2]

theorem magnitude_replicate_append (k : Nat) (ds : List Int) :
    magnitude (List.replicate k 0 ++ ds) = magnitude ds := by
  induction k with
  | zero => simp
  | succ n ih => rw [List.replicate_succ, List.cons_append, magnitude_cons, ih]; simp

theorem magnitude_pad (ds : List Int) (n : Nat) :
    magnitude (padVectorWithZeroes ds n) = magnitude ds :=
  magnitude_replicate_append _ _

theorem pad_length (ds : List Int) (n : Nat) (h : ds.length ≤ n) :
    (padVectorWithZeroes ds n).length = n := by
  simp [padVectorWithZeroes]; omega

theorem pad_digits (ds : List Int) (n : Nat) (h : ∀ d ∈ ds, 0 ≤ d ∧ d ≤ 9) :
    ∀ d ∈ padVectorWithZeroes ds n, 0 ≤ d ∧ d ≤ 9 := by
  intro d hd
  simp only [padVectorWithZeroes, List.mem_append, List.mem_replicate] at hd
  rcases hd with ⟨_, rfl⟩ | hd
  · simp
  · exact h d hd

/-! ## The digit loop of `operator+` -/

theorem addLoop_spec (m : Int) (hm : m = 1 ∨ m = -1) :
    ∀ (xs ys : List Int) (c : Int), xs.length = ys.length →
      (∀ d ∈ xs, 0 ≤ d ∧ d ≤ 9) → (∀ d ∈ ys, 0 ≤ d ∧ d ≤ 9) → (c = 0 ∨ c = 1) →
      (addLoop m xs ys c).1.length = xs.length ∧
      (∀ d ∈ (addLoop m xs ys c).1, 0 ≤ d ∧ d ≤ 9) ∧
      ((addLoop m xs ys c).2 = 0 ∨ (addLoop m xs ys c).2 = 1) ∧
      magnitude (addLoop m xs ys c).1.reverse + m * 10 ^ xs.length * (addLoop m xs ys c).2
        = magnitude xs.reverse + m * (magnitude ys.reverse + c) := by
  intro xs
  induction xs with
  | nil =>
    intro ys c hlen _ _ hc
    cases ys with
    | nil => simp [addLoop, magnitude, hc]
    | cons y t => simp at hlen
  | cons x t ih =>
    intro ys c hlen hxs hys hc
    cases ys with
    | nil => simp at hlen
    | cons y u =>
      have hx := hxs x (List.mem_cons_self x t)
      have hy := hys y (List.mem_cons_self y u)
      have hlen' : t.length = u.length := by simpa using hlen
      have hstep := fun (c' : Int) (hc' : c' = 0 ∨ c' = 1) =>
        ih u c' hlen' (fun d hd => hxs d (List.mem_cons_of_mem x hd))
          (fun d hd => hys d (List.mem_cons_of_mem y hd)) hc'
      simp only [addLoop, magnitude_reverse_cons, List.length_cons, pow_succ]
      split_ifs with h1 h2
      · obtain ⟨a1, a2, a3, a4⟩ := hstep 1 (Or.inr rfl)
        refine ⟨by simp [a1], ?_, a3, ?_⟩
        · intro d hd
          rcases List.mem_cons.1 hd with rfl | hd
          · rcases hm with rfl | rfl <;> rcases hc with rfl | rfl <;> omega
          · exact a2 d hd
        · rcases hm with rfl | rfl
          · linear_combination 10 * a4
          · exfalso; rcases hc with rfl | rfl <;> omega
      · obtain ⟨a1, a2, a3, a4⟩ := hstep 1 (Or.inr rfl)
        simp only [Bool.or_eq_true, decide_eq_true_eq] at h1
        refine ⟨by simp [a1], ?_, a3, ?_⟩
        · intro d hd
          rcases List.mem_cons.1 hd with rfl | hd
          · rcases hm with rfl | rfl <;> rcases hc with rfl | rfl <;> omega
          · exact a2 d hd
        · rcases hm with rfl | rfl
          · exfalso; rcases hc with rfl | rfl <;> omega
          · linear_combination 10 * a4
      · obtain ⟨a1, a2, a3, a4⟩ := hstep 0 (Or.inl rfl)
        simp only [Bool.or_eq_true, decide_eq_true_eq, not_or, not_lt] at h1
        refine ⟨by simp [a1], ?_, a3, ?_⟩
        · intro d hd
          rcases List.mem_cons.1 hd with rfl | hd
          · omega
          · exact a2 d hd
        · linear_combination 10 * a4

end BigInteger

namespace BigInteger

/-! ## Stripping the zeroes left at the end of `resultDigits` -/

theorem dropFrontZeroes_zero_cons (d : Int) (rest : List Int) :
    dropFrontZeroes (0 :: d :: rest) = dropFrontZeroes (d :: rest) := by
  simp [dropFrontZeroes]

theorem dropFrontZeroes_singleton (x : Int) : dropFrontZeroes [x] = [x] := by
  unfold dropFrontZeroes
  split
  · simp_all
  · rfl

theorem dropFrontZeroes_nonzero_cons (x : Int) (t : List Int) (hx : x ≠ 0) :
    dropFrontZeroes (x :: t) = x :: t := by
  unfold dropFrontZeroes
  split
  · simp_all
  · rfl

theorem dropFrontZeroes_spec (l : List Int) (hne : l ≠ []) :
    dropFrontZeroes l ≠ [] ∧ (∀ d ∈ dropFrontZeroes l, d ∈ l) ∧
      magnitude (dropFrontZeroes l) = magnitude l ∧
      ((dropFrontZeroes l).head? = some 0 → dropFrontZeroes l = [0]) := by
  induction l with
  | nil => exact absurd rfl hne
  | cons x t ih =>
    cases t with
    | nil =>
      rw [dropFrontZeroes_singleton]
      refine ⟨by simp, fun d hd => hd, rfl, ?_⟩
      intro h
      simp only [List.head?_cons, Option.some.injEq] at h
      rw [h]
    | cons d rest =>
      by_cases hx : x = 0
      · subst hx
        rw [dropFrontZeroes_zero_cons]
        obtain ⟨i1, i2, i3, i4⟩ := ih (by simp)
        refine ⟨i1, fun e he => List.mem_cons_of_mem _ (i2 e he), ?_, i4⟩
        rw [i3, magnitude_cons 0]
        simp
      · rw [dropFrontZeroes_nonzero_cons x _ hx]
        refine ⟨by simp, fun e he => he, rfl, ?_⟩
        intro h
        simp only [List.head?_cons, Option.some.injEq] at h
        exact absurd h hx

/-! ## The string constructor applied to the digits of a result -/

theorem digitChar_spec (d : Int) (h0 : 0 ≤ d) (h9 : d ≤ 9) :
    (digitChar d < '0' || digitChar d > '9') = false ∧
      ((digitChar d).toNat : Int) - 48 = d ∧ digitChar d ≠ '-' ∧ digitChar d ≠ '+' := by
  interval_cases d <;> decide

theorem parseDigits_map_digitChar (ds : List Int) (h : ∀ d ∈ ds, 0 ≤ d ∧ d ≤ 9) :
    parseDigits (ds.map digitChar) = Outcome.ok ds := by
  induction ds with
  | nil => rfl
  | cons x t ih =>
    have hx := h x (List.mem_cons_self x t)
    obtain ⟨c1, c2, -, -⟩ := digitChar_spec x hx.1 hx.2
    have ht := ih (fun d hd => h d (List.mem_cons_of_mem x hd))
    simp only [List.map_cons, parseDigits, c1, ht, c2, Outcome.ok_bind, Outcome.pure_eq]
    simp

theorem ofString_map_digitChar (ds : List Int) (h : DigitsOk ds) :
    ofString (String.mk (ds.map digitChar)) = Outcome.ok { digits := ds, isNegative := false } := by
  obtain ⟨hne, hd⟩ := h
  cases ds with
  | nil => exact absurd rfl hne
  | cons x t =>
    have hx := hd x (List.mem_cons_self x t)
    obtain ⟨-, -, c3, c4⟩ := digitChar_spec x hx.1 hx.2
    have hp := parseDigits_map_digitChar (x :: t) hd
    simp only [List.map_cons] at hp
    simp only [ofString, List.map_cons, c3, c4, hp, Outcome.ok_bind, Outcome.pure_eq]
    simp

/-! ## The digit loops of `operator>` -/

theorem gtLoopPositive_iff : ∀ (xs ys : List Int), xs.length = ys.length →
    (∀ d ∈ xs, 0 ≤ d ∧ d ≤ 9) → (∀ d ∈ ys, 0 ≤ d ∧ d ≤ 9) →
    (gtLoopPositive xs ys = true ↔ magnitude ys < magnitude xs) := by
  intro xs
  induction xs with
  | nil =>
    intro ys hlen _ _
    cases ys with
    | nil => simp [gtLoopPositive]
    | cons y u => simp at hlen
  | cons x t ih =>
    intro ys hlen hxs hys
    cases ys with
    | nil => simp at hlen
    | cons y u =>
      have hlen' : t.length = u.length := by simpa using hlen
      have hxt := fun d hd => hxs d (List.mem_cons_of_mem x hd)
      have hyu := fun d hd => hys d (List.mem_cons_of_mem y hd)
      have bt := magnitude_bounds t hxt
      have bu := magnitude_bounds u hyu
      rw [hlen'] at bt
      have hp : (0 : Int) ≤ 10 ^ u.length := by positivity
      rw [magnitude_cons, magnitude_cons, hlen']
      simp only [gtLoopPositive]
      split_ifs with h1 h2
      · have := mul_le_mul_of_nonneg_right (show y + 1 ≤ x by omega) hp
        simp only [true_iff]; nlinarith
      · have := mul_le_mul_of_nonneg_right (show x + 1 ≤ y by omega) hp
        simp only [Bool.false_eq_true, false_iff, not_lt]; nlinarith
      · have hxy : x = y := by omega
        subst hxy
        rw [ih u hlen' hxt hyu]
        constructor <;> intro h <;> linarith

theorem gtLoopNegative_iff : ∀ (xs ys : List Int), xs.length = ys.length →
    (∀ d ∈ xs, 0 ≤ d ∧ d ≤ 9) → (∀ d ∈ ys, 0 ≤ d ∧ d ≤ 9) →
    (gtLoopNegative xs ys = true ↔ magnitude xs < magnitude ys) := by
  intro xs
  induction xs with
  | nil =>
    intro ys hlen _ _
    cases ys with
    | nil => simp [gtLoopNegative]
    | cons y u => simp at hlen
  | cons x t ih =>
    intro ys hlen hxs hys
    cases ys with
    | nil => simp at hlen
    | cons y u =>
      have hlen' : t.length = u.length := by simpa using hlen
      have hxt := fun d hd => hxs d (List.mem_cons_of_mem x hd)
      have hyu := fun d hd => hys d (List.mem_cons_of_mem y hd)
      have bt := magnitude_bounds t hxt
      have bu := magnitude_bounds u hyu
      rw [hlen'] at bt
      have hp : (0 : Int) ≤ 10 ^ u.length := by positivity
      rw [magnitude_cons, magnitude_cons, hlen']
      simp only [gtLoopNegative]
      split_ifs with h1 h2
      · have := mul_le_mul_of_nonneg_right (show y + 1 ≤ x by omega) hp
        simp only [Bool.false_eq_true, false_iff, not_lt]; nlinarith
      · have := mul_le_mul_of_nonneg_right (show x + 1 ≤ y by omega) hp
        simp only [true_iff]; nlinarith
      · have hxy : x = y := by omega
        subst hxy
        rw [ih u hlen' hxt hyu]
        constructor <;> intro h <;> linarith

theorem gt_of_nonneg (a b : BigInteger) (ha : DigitsOk a.digits) (hb : DigitsOk b.digits)
    (hsa : a.isNegative = false) (hsb : b.isNegative = false) :
    (gt a b = true ↔ magnitude b.digits < magnitude a.digits) := by
  simp only [gt, hsa, hsb, bne_self_eq_false, Bool.false_eq_true, if_false]
  rw [gtLoopPositive_iff _ _ _ (pad_digits _ _ ha.2) (pad_digits _ _ hb.2),
    magnitude_pad, magnitude_pad]
  rw [pad_length _ _ (le_max_left _ _), pad_length _ _ (le_max_right _ _)]

theorem gt_of_neg (a b : BigInteger) (ha : DigitsOk a.digits) (hb : DigitsOk b.digits)
    (hsa : a.isNegative = true) (hsb : b.isNegative = true) :
    (gt a b = true ↔ magnitude a.digits < magnitude b.digits) := by
  simp only [gt, hsa, hsb, bne_self_eq_false, Bool.false_eq_true, if_false, if_true]
  rw [gtLoopNegative_iff _ _ _ (pad_digits _ _ ha.2) (pad_digits _ _ hb.2),
    magnitude_pad, magnitude_pad]
  rw [pad_length _ _ (le_max_left _ _), pad_length _ _ (le_max_right _ _)]

end BigInteger

namespace BigInteger

/-! ## `operator+` -/

theorem add_eq_addTail (a other : BigInteger) :
    add a other =
      if a.isNegative != other.isNegative then
        if other.isNegative then
          if gt (neg a) other then
            addTail (-1) true other.digits a.digits (max a.digits.length other.digits.length)
          else
            addTail (-1) (a.isNegative && other.isNegative) a.digits other.digits
              (max a.digits.length other.digits.length)
        else
          if gt (neg a) other then
            addTail (-1) true a.digits other.digits (max a.digits.length other.digits.length)
          else
            addTail (-1) (a.isNegative && other.isNegative) other.digits a.digits
              (max a.digits.length other.digits.length)
      else
        addTail 1 (a.isNegative && other.isNegative) a.digits other.digits
          (max a.digits.length other.digits.length) := by
  unfold add addTail
  split_ifs <;> rfl

theorem addTail_spec (m : Int) (hm : m = 1 ∨ m = -1) (s : Bool) (xs ys : List Int) (n : Nat)
    (hx : ∀ d ∈ xs, 0 ≤ d ∧ d ≤ 9) (hy : ∀ d ∈ ys, 0 ≤ d ∧ d ≤ 9)
    (hxl : xs.length ≤ n) (hyl : ys.length ≤ n) (hn : 0 < n)
    (hsub : m = -1 → magnitude ys ≤ magnitude xs) :
    ∃ rd, addTail m s xs ys n = Outcome.ok { digits := rd, isNegative := s } ∧
      DigitsOk rd ∧ (rd.head? = some 0 → rd = [0]) ∧
      magnitude rd = magnitude xs + m * magnitude ys := by
  have hpx := pad_digits xs n hx
  have hpy := pad_digits ys n hy
  have hlx := pad_length xs n hxl
  have hly := pad_length ys n hyl
  obtain ⟨l1, l2, l3, l4⟩ := addLoop_spec m hm (padVectorWithZeroes xs n).reverse
    (padVectorWithZeroes ys n).reverse 0 (by simp [hlx, hly])
    (fun d hd => hpx d (List.mem_reverse.1 hd)) (fun d hd => hpy d (List.mem_reverse.1 hd))
    (Or.inl rfl)
  simp only [List.reverse_reverse, List.length_reverse, hlx, magnitude_pad, add_zero] at l1 l4
  simp only [addTail]
  generalize addLoop m (padVectorWithZeroes xs n).reverse (padVectorWithZeroes ys n).reverse 0
    = looped at l1 l2 l3 l4 ⊢
  have hb := magnitude_bounds looped.1.reverse (fun d hd => l2 d (List.mem_reverse.1 hd))
  rw [List.length_reverse, l1] at hb
  -- the digits before the zeroes are stripped, most significant first
  have key : ∃ raw : List Int, (if looped.2 = 1 then looped.1 ++ [1] else looped.1).reverse = raw ∧
      raw ≠ [] ∧ (∀ d ∈ raw, 0 ≤ d ∧ d ≤ 9) ∧ magnitude raw = magnitude xs + m * magnitude ys := by
    refine ⟨_, rfl, ?_⟩
    rcases l3 with h0 | h1
    · rw [h0] at l4
      simp only [h0, zero_ne_one, if_false]
      refine ⟨?_, fun d hd => l2 d (List.mem_reverse.1 hd), by linarith⟩
      intro h
      have := congrArg List.length h
      simp only [List.length_reverse, l1, List.length_nil] at this
      omega
    · rw [h1] at l4
      simp only [h1, if_true, List.reverse_append, List.reverse_singleton, List.singleton_append]
      refine ⟨by simp, ?_, ?_⟩
      · intro d hd
        rcases List.mem_cons.1 hd with rfl | hd
        · simp
        · exact l2 d (List.mem_reverse.1 hd)
      · rcases hm with rfl | rfl
        · rw [magnitude_cons, List.length_reverse, l1]; linarith
        · have := hsub rfl
          exfalso; linarith [hb.2]
  obtain ⟨raw, hraw, r1, r2, r3⟩ := key
  obtain ⟨s1, s2, s3, s4⟩ := dropFrontZeroes_spec raw r1
  refine ⟨dropFrontZeroes raw, ?_, ⟨s1, fun d hd => r2 d (s2 d hd)⟩, s4, by rw [s3, r3]⟩
  have hrd : (popBackZeroes (if looped.2 = 1 then looped.1 ++ [1] else looped.1)).reverse
      = dropFrontZeroes raw := by
    rw [popBackZeroes, List.reverse_reverse, hraw]
  rw [hrd, ofString_map_digitChar _ ⟨s1, fun d hd => r2 d (s2 d hd)⟩]
  rfl

theorem toInt_of_neg (a : BigInteger) (h : a.isNegative = true) :
    toInt a = -(magnitude a.digits) := by simp [toInt, h]

theorem toInt_of_nonneg (a : BigInteger) (h : a.isNegative = false) :
    toInt a = magnitude a.digits := by simp [toInt, h]

theorem neg_digits (a : BigInteger) : (neg a).digits = a.digits := rfl

theorem neg_isNegative (a : BigInteger) : (neg a).isNegative = !a.isNegative := rfl

/-- The result of `operator+` on operands with well-formed digits: the call returns, the digits of
the result are well formed and carry no leading zero, the value is the sum, and a set sign flag on
a zero result can only come from two operands with a set sign flag. -/
theorem add_spec (a b : BigInteger) (ha : DigitsOk a.digits) (hb : DigitsOk b.digits) :
    ∃ r, add a b = Outcome.ok r ∧ DigitsOk r.digits ∧
      (r.digits.head? = some 0 → r.digits = [0]) ∧ toInt r = toInt a + toInt b ∧
      (r.isNegative = true → magnitude r.digits = 0 →
        a.isNegative = true ∧ b.isNegative = true) := by
  have hn : 0 < max a.digits.length b.digits.length := by
    have : 0 < a.digits.length := List.length_pos.2 ha.1
    exact lt_of_lt_of_le this (le_max_left _ _)
  have hla := le_max_left a.digits.length b.digits.length
  have hlb := le_max_right a.digits.length b.digits.length
  rw [add_eq_addTail]
  cases hsa : a.isNegative <;> cases hsb : b.isNegative
  · -- both non-negative
    obtain ⟨rd, e, p1, p2, p3⟩ := addTail_spec 1 (Or.inl rfl) (false && false) a.digits b.digits _
      ha.2 hb.2 hla hlb hn (by intro h; norm_num at h)
    refine ⟨_, by simpa using e, p1, p2, ?_, by simp⟩
    simp only [toInt, hsa, hsb, Bool.and_self, Bool.false_eq_true, if_false, p3]; ring
  · -- a non-negative, b negative
    have hcmp := gt_of_neg (neg a) b ha hb (by simp [neg_isNegative, hsa]) hsb
    rw [neg_digits] at hcmp
    by_cases hg : gt (neg a) b = true
    · have hlt := hcmp.1 hg
      obtain ⟨rd, e, p1, p2, p3⟩ := addTail_spec (-1) (Or.inr rfl) true b.digits a.digits _
        hb.2 ha.2 hlb hla hn (fun _ => le_of_lt hlt)
      refine ⟨_, by simpa [hg] using e, p1, p2, ?_, ?_⟩
      · simp only [toInt, hsa, hsb, Bool.false_eq_true, if_false, if_true, p3]; ring
      · intro _ h0; exfalso; simp only [p3] at h0; linarith
    · have hge : ¬ magnitude a.digits < magnitude b.digits := fun h => hg (hcmp.2 h)
      obtain ⟨rd, e, p1, p2, p3⟩ := addTail_spec (-1) (Or.inr rfl) (false && true) a.digits
        b.digits _ ha.2 hb.2 hla hlb hn (fun _ => not_lt.1 hge)
      refine ⟨_, by simpa [hg] using e, p1, p2, ?_, by simp⟩
      simp only [toInt, hsa, hsb, Bool.false_eq_true, if_false, if_true, p3, Bool.and_true]; ring
  · -- a negative, b non-negative
    have hcmp := gt_of_nonneg (neg a) b ha hb (by simp [neg_isNegative, hsa]) hsb
    rw [neg_digits] at hcmp
    by_cases hg : gt (neg a) b = true
    · have hlt := hcmp.1 hg
      obtain ⟨rd, e, p1, p2, p3⟩ := addTail_spec (-1) (Or.inr rfl) true a.digits b.digits _
        ha.2 hb.2 hla hlb hn (fun _ => le_of_lt hlt)
      refine ⟨_, by simpa [hg] using e, p1, p2, ?_, ?_⟩
      · simp only [toInt, hsa, hsb, Bool.false_eq_true, if_false, if_true, p3]; ring
      · intro _ h0; exfalso; simp only [p3] at h0; linarith
    · have hge : ¬ magnitude b.digits < magnitude a.digits := fun h => hg (hcmp.2 h)
      obtain ⟨rd, e, p1, p2, p3⟩ := addTail_spec (-1) (Or.inr rfl) (true && false) b.digits
        a.digits _ hb.2 ha.2 hlb hla hn (fun _ => not_lt.1 hge)
      refine ⟨_, by simpa [hg] using e, p1, p2, ?_, by simp⟩
      simp only [toInt, hsa, hsb, Bool.false_eq_true, if_false, if_true, p3, Bool.and_false]; ring
  · -- both negative
    obtain ⟨rd, e, p1, p2, p3⟩ := addTail_spec 1 (Or.inl rfl) (true && true) a.digits b.digits _
      ha.2 hb.2 hla hlb hn (by intro h; norm_num at h)
    refine ⟨_, by simpa using e, p1, p2, ?_, by simp⟩
    simp only [toInt, hsa, hsb, Bool.and_self, if_true, p3]; ring

end BigInteger

namespace BigInteger

/-! ## Normalized digit sequences denote distinct numbers -/

theorem magnitude_eq_zero (ds : List Int) (h : DigitsOk ds)
    (hz : ds.head? = some 0 → ds = [0]) (hm : magnitude ds = 0) : ds = [0] := by
  obtain ⟨hne, hd⟩ := h
  cases ds with
  | nil => exact absurd rfl hne
  | cons x t =>
    have hx := hd x (List.mem_cons_self x t)
    have bt := magnitude_bounds t (fun d hd' => hd d (List.mem_cons_of_mem x hd'))
    have hp : (0 : Int) < 10 ^ t.length := by positivity
    rw [magnitude_cons] at hm
    have hx0 : x = 0 := by
      by_contra hne0
      have : 1 ≤ x := by omega
      nlinarith [bt.1]
    subst hx0
    exact hz rfl

theorem magnitude_lower (ds : List Int) (h : DigitsOk ds)
    (hz : ds.head? = some 0 → ds = [0]) (hm : magnitude ds ≠ 0) :
    (10 : Int) ^ (ds.length - 1) ≤ magnitude ds := by
  obtain ⟨hne, hd⟩ := h
  cases ds with
  | nil => exact absurd rfl hne
  | cons x t =>
    have hx := hd x (List.mem_cons_self x t)
    have bt := magnitude_bounds t (fun d hd' => hd d (List.mem_cons_of_mem x hd'))
    have hp : (0 : Int) < 10 ^ t.length := by positivity
    have hx0 : x ≠ 0 := by
      intro h0
      subst h0
      have := hz rfl
      rw [this] at hm
      exact hm rfl
    have : 1 ≤ x := by omega
    rw [magnitude_cons]
    simp only [List.length_cons, Nat.add_sub_cancel]
    nlinarith [bt.1]

theorem magnitude_inj_of_length_eq : ∀ (xs ys : List Int), xs.length = ys.length →
    (∀ d ∈ xs, 0 ≤ d ∧ d ≤ 9) → (∀ d ∈ ys, 0 ≤ d ∧ d ≤ 9) →
    magnitude xs = magnitude ys → xs = ys := by
  intro xs
  induction xs with
  | nil =>
    intro ys hlen _ _ _
    cases ys with
    | nil => rfl
    | cons y u => simp at hlen
  | cons x t ih =>
    intro ys hlen hxs hys hm
    cases ys with
    | nil => simp at hlen
    | cons y u =>
      have hlen' : t.length = u.length := by simpa using hlen
      have hxt := fun d hd => hxs d (List.mem_cons_of_mem x hd)
      have hyu := fun d hd => hys d (List.mem_cons_of_mem y hd)
      have bt := magnitude_bounds t hxt
      have bu := magnitude_bounds u hyu
      rw [hlen'] at bt
      have hp : (0 : Int) ≤ 10 ^ u.length := by positivity
      rw [magnitude_cons, magnitude_cons, hlen'] at hm
      have hxy : x = y := by
        rcases lt_trichotomy x y with h | h | h
        · have := mul_le_mul_of_nonneg_right (show x + 1 ≤ y by omega) hp
          exfalso; nlinarith
        · exact h
        · have := mul_le_mul_of_nonneg_right (show y + 1 ≤ x by omega) hp
          exfalso; nlinarith
      subst hxy
      rw [ih u hlen' hxt hyu (by linarith)]

theorem magnitude_inj (xs ys : List Int) (hx : DigitsOk xs) (hy : DigitsOk ys)
    (hzx : xs.head? = some 0 → xs = [0]) (hzy : ys.head? = some 0 → ys = [0])
    (hm : magnitude xs = magnitude ys) : xs = ys := by
  by_cases h0 : magnitude xs = 0
  · rw [magnitude_eq_zero xs hx hzx h0, magnitude_eq_zero ys hy hzy (hm ▸ h0)]
  · have lx := magnitude_lower xs hx hzx h0
    have ly := magnitude_lower ys hy hzy (hm ▸ h0)
    have ux := (magnitude_bounds xs hx.2).2
    have uy := (magnitude_bounds ys hy.2).2
    have px : 0 < xs.length := List.length_pos.2 hx.1
    have py : 0 < ys.length := List.length_pos.2 hy.1
    have h1 : xs.length - 1 < ys.length := by
      have : (10 : Int) ^ (xs.length - 1) < 10 ^ ys.length := by rw [hm] at lx; linarith
      exact (pow_lt_pow_iff_right₀ (by norm_num : (1 : Int) < 10)).1 this
    have h2 : ys.length - 1 < xs.length := by
      have : (10 : Int) ^ (ys.length - 1) < 10 ^ xs.length := by rw [← hm] at ly; linarith
      exact (pow_lt_pow_iff_right₀ (by norm_num : (1 : Int) < 10)).1 this
    exact magnitude_inj_of_length_eq xs ys (by omega) hx.2 hy.2 hm

/-! ## Normalized values -/

theorem Normalized.digitsOk {a : BigInteger} (h : Normalized a) : DigitsOk a.digits := h.1

theorem Normalized.magnitude_ne_zero {a : BigInteger} (h : Normalized a)
    (hs : a.isNegative = true) : magnitude a.digits ≠ 0 := by
  intro h0
  have := h.2.2 (magnitude_eq_zero a.digits h.1 h.2.1 h0)
  rw [hs] at this
  exact Bool.noConfusion this

theorem magnitude_nonneg_of_digitsOk {ds : List Int} (h : DigitsOk ds) : 0 ≤ magnitude ds :=
  (magnitude_bounds ds h.2).1

theorem toInt_neg (a : BigInteger) : toInt (neg a) = -(toInt a) := by
  cases h : a.isNegative <;> simp [toInt, neg, h]

/-- The sum of two operands with well-formed digits, one of which is not a negative zero, is
normalized and denotes the sum of the values. -/
theorem add_normalized (a b : BigInteger) (ha : DigitsOk a.digits) (hb : DigitsOk b.digits)
    (hz : (a.isNegative = true → magnitude a.digits ≠ 0) ∨
      (b.isNegative = true → magnitude b.digits ≠ 0)) :
    ∃ r, add a b = Outcome.ok r ∧ Normalized r ∧ toInt r = toInt a + toInt b := by
  obtain ⟨r, e, p1, p2, p3, p4⟩ := add_spec a b ha hb
  refine ⟨r, e, ⟨p1, p2, ?_⟩, p3⟩
  intro h0
  by_contra hneg
  have hs : r.isNegative = true := by simpa using hneg
  have hm0 : magnitude r.digits = 0 := by rw [h0]; rfl
  obtain ⟨sa, sb⟩ := p4 hs hm0
  have na := magnitude_nonneg_of_digitsOk ha
  have nb := magnitude_nonneg_of_digitsOk hb
  rw [toInt_of_neg r hs, toInt_of_neg a sa, toInt_of_neg b sb, hm0] at p3
  rcases hz with hz | hz
  · exact hz sa (by linarith)
  · exact hz sb (by linarith)

theorem add_of_normalized (a b : BigInteger) (ha : Normalized a) (hb : Normalized b) :
    ∃ r, add a b = Outcome.ok r ∧ Normalized r ∧ toInt r = toInt a + toInt b :=
  add_normalized a b ha.1 hb.1 (Or.inl ha.magnitude_ne_zero)

/-- Claim C1: for normalized operands `operator+` returns, its result is normalized, and the value
of the result is the sum of the values of the operands, whatever the signs and lengths. -/
theorem add_correct (a b : BigInteger) (ha : Normalized a) (hb : Normalized b) :
    ∃ r, add a b = Outcome.ok r ∧ Normalized r ∧ toInt r = toInt a + toInt b :=
  add_normalized a b ha.1 hb.1 (Or.inl ha.magnitude_ne_zero)

set_option maxRecDepth 100000 in
/-- Claim C1 at `"123456789012345678901234567890" + "1"`: both operands are normalized, so the
theorem applies, and the digits of the sum read `123456789012345678901234567891`. -/
theorem add_correct_witness :
    Normalized ⟨[1,2,3,4,5,6,7,8,9,0,1,2,3,4,5,6,7,8,9,0,1,2,3,4,5,6,7,8,9,0], false⟩ ∧
    Normalized ⟨[1], false⟩ ∧
    (∃ r, add ⟨[1,2,3,4,5,6,7,8,9,0,1,2,3,4,5,6,7,8,9,0,1,2,3,4,5,6,7,8,9,0], false⟩ ⟨[1], false⟩
        = Outcome.ok r ∧ Normalized r ∧
      toInt r = toInt ⟨[1,2,3,4,5,6,7,8,9,0,1,2,3,4,5,6,7,8,9,0,1,2,3,4,5,6,7,8,9,0], false⟩
        + toInt ⟨[1], false⟩) ∧
    (do
      let x ← ofString "123456789012345678901234567890"
      let y ← ofString "1"
      let r ← add x y
      pure (toString r)) = Outcome.ok "123456789012345678901234567891" :=
  ⟨by decide, by decide, add_correct _ _ (by decide) (by decide), by decide⟩

/-- Claim C2: for normalized operands `a - b`, computed as `a + (-b)`, returns a normalized
result whose value is the difference of the values, also when `-b` is a negative zero; and
`"0" - "0"` is `ZERO`, with digits `[0]` and a false sign flag. -/
theorem sub_correct (a b : BigInteger) (ha : Normalized a) (hb : Normalized b) :
    (∃ r, sub a b = Outcome.ok r ∧ Normalized r ∧ toInt r = toInt a - toInt b) ∧
      sub ZERO ZERO = Outcome.ok { digits := [0], isNegative := false } := by
  refine ⟨?_, by decide⟩
  obtain ⟨r, e, n, v⟩ := add_normalized a (neg b) ha.1 hb.1 (Or.inl ha.magnitude_ne_zero)
  exact ⟨r, e, n, by rw [v, toInt_neg]; ring⟩

/-- Claim C2 at `"5" - "0"`, where `-b` is the negative zero. -/
theorem sub_correct_witness :
    Normalized ⟨[5], false⟩ ∧ Normalized ZERO ∧
    ((∃ r, sub ⟨[5], false⟩ ZERO = Outcome.ok r ∧ Normalized r ∧
        toInt r = toInt ⟨[5], false⟩ - toInt ZERO) ∧
      sub ZERO ZERO = Outcome.ok { digits := [0], isNegative := false }) :=
  ⟨by decide, by decide, sub_correct _ _ (by decide) (by decide)⟩

end BigInteger

namespace BigInteger

/-! ## `operator/` and `operator%` on the inputs of the specification -/

/-- Claim C3 fails at `"-17" / "5"`: both operands are normalized and the divisor is not zero, the
loop guard `remainder_ >= divisor` is false at once for the negative running remainder, and the
result is the quotient `ZERO` with its sign flag set, of value 0, where truncation gives -3. -/
theorem div_negative_dividend :
    Normalized ⟨[1, 7], true⟩ ∧ Normalized ⟨[5], false⟩ ∧
    (∀ fuel, div (fuel + 1) ⟨[1, 7], true⟩ ⟨[5], false⟩ = Outcome.ok ⟨[0], true⟩) ∧
    toInt ⟨[0], true⟩ ≠ Int.tdiv (toInt ⟨[1, 7], true⟩) (toInt ⟨[5], false⟩) ∧
    Int.tdiv (toInt ⟨[1, 7], true⟩) (toInt ⟨[5], false⟩) = -3 :=
  ⟨by decide, by decide, fun _ => rfl, by decide, by decide⟩

/-- Claim C4 fails at `a = "10"`, `b = "5"`: `a / b` is 2, `(a / b) * b` is 10, `a % b` is 5
because the loop guard `result > divisor` stops one subtraction early, and the sum 15 is not
`a` under `operator==`. -/
theorem div_mod_relation_fails :
    Normalized ⟨[1, 0], false⟩ ∧ Normalized ⟨[5], false⟩ ∧
    (∀ fuel,
      (do
        let q ← div (fuel + 6) ⟨[1, 0], false⟩ ⟨[5], false⟩
        let p ← mul (fuel + 6) q ⟨[5], false⟩
        let m ← mod (fuel + 6) ⟨[1, 0], false⟩ ⟨[5], false⟩
        let s ← add p m
        pure (s, eq s ⟨[1, 0], false⟩)) = Outcome.ok (⟨[1, 5], false⟩, false)) :=
  ⟨by decide, by decide, fun _ => rfl⟩

/-- Claim C5 fails at `"-17" % "5"` and at `"10" % "5"`: the first returns -17 where the
remainder of truncating division is -2, the second returns 5, whose magnitude is not smaller
than that of the divisor. -/
theorem mod_not_remainder :
    Normalized ⟨[1, 7], true⟩ ∧ Normalized ⟨[1, 0], false⟩ ∧ Normalized ⟨[5], false⟩ ∧
    (∀ fuel, mod (fuel + 1) ⟨[1, 7], true⟩ ⟨[5], false⟩ = Outcome.ok ⟨[1, 7], true⟩) ∧
    Int.tmod (toInt ⟨[1, 7], true⟩) (toInt ⟨[5], false⟩) = -2 ∧
    (∀ fuel, mod (fuel + 2) ⟨[1, 0], false⟩ ⟨[5], false⟩ = Outcome.ok ⟨[5], false⟩) ∧
    ¬ magnitude [5] < magnitude [5] :=
  ⟨by decide, by decide, by decide, fun _ => rfl, by decide, fun _ => rfl, by decide⟩

end BigInteger

namespace BigInteger

/-! ## The string constructor and the conversion to a string -/

theorem digitChar_of_digit (c : Char) (h : isDecimalDigit c = true) :
    (c < '0' || c > '9') = false ∧ digitChar ((c.toNat : Int) - 48) = c := by
  simp only [isDecimalDigit, Bool.and_eq_true, decide_eq_true_eq] at h
  have h1 : 48 ≤ c.toNat := h.1
  have h2 : c.toNat ≤ 57 := h.2
  constructor
  · have a1 : ¬ c < '0' := fun (hlt : c.toNat < 48) => by omega
    have a2 : ¬ c > '9' := fun (hlt : 57 < c.toNat) => by omega
    simp [a1, a2]
  · have e : (((c.toNat : Int) - 48 + 48) % 256).toNat = c.toNat := by omega
    rw [digitChar, e, Char.ofNat_toNat]

theorem parseDigits_of_digits (cs : List Char) (h : cs.all isDecimalDigit = true) :
    ∃ ds, parseDigits cs = Outcome.ok ds ∧ ds.map digitChar = cs := by
  induction cs with
  | nil => exact ⟨[], rfl, rfl⟩
  | cons c t ih =>
    simp only [List.all_cons, Bool.and_eq_true] at h
    obtain ⟨ds, e, m⟩ := ih h.2
    obtain ⟨g, r⟩ := digitChar_of_digit c h.1
    refine ⟨((c.toNat : Int) - 48) :: ds, ?_, by simp only [List.map_cons, r, m]⟩
    simp only [parseDigits, g, e, Outcome.ok_bind, Outcome.pure_eq]
    simp

/-- Claim C8 fails at the strings `"-"` and `"+"`: the length test comes before the sign is
consumed, no digit is required after it, and the constructor returns an object with an empty
digit vector. The empty string and `"12a3"` are rejected. -/
theorem ofString_sign_only :
    ofString "-" = Outcome.ok ⟨[], true⟩ ∧ ofString "+" = Outcome.ok ⟨[], false⟩ ∧
    ofString "" = Outcome.thrown Err.emptyString ∧
    ofString "12a3" = Outcome.thrown (Err.nonDigit 'a') := by
  decide

/-- Claim C9 fails at `"-0"` and at `"007"`: both are valid decimal strings, the specification
expects `"0"` and `"7"`, and the constructor stores the sign and the digits as written, so the
conversion to a string gives `"-0"` and `"007"` back. The objects built denote 0 and 7, and the
comparison operators, documented as comparing by value, tell them apart from `"0"` and `"7"`:
`"-0" < "0"` and `"007" < "7"` are true and both `==` are false. -/
theorem roundtrip_not_normalizing :
    ValidDecimal "-0" = true ∧ expectedCanonical "-0" = "0" ∧
    (do let a ← ofString "-0"; pure (toString a)) = Outcome.ok "-0" ∧
    (do let a ← ofString "-0"; pure (toString a)) ≠ Outcome.ok (expectedCanonical "-0") ∧
    ValidDecimal "007" = true ∧ expectedCanonical "007" = "7" ∧
    (do let a ← ofString "007"; pure (toString a)) = Outcome.ok "007" ∧
    (do let a ← ofString "007"; pure (toString a)) ≠ Outcome.ok (expectedCanonical "007") ∧
    (do let a ← ofString "-0"; let z ← ofString "0"; pure (toInt a, toInt z, lt a z, eq a z))
      = Outcome.ok (0, 0, true, false) ∧
    (do let a ← ofString "007"; let z ← ofString "7"; pure (toInt a, toInt z, lt a z, eq a z))
      = Outcome.ok (7, 7, true, false) := by
  decide

/-- What the constructor followed by the conversion to a string does on a valid decimal string:
the constructor returns, and the string of the result is the input with a leading `+` dropped
and nothing else changed. -/
theorem toString_ofString (s : String) (h : ValidDecimal s = true) :
    ∃ a, ofString s = Outcome.ok a ∧ toString a = dropLeadingPlus s := by
  obtain ⟨cs⟩ := s
  cases cs with
  | nil => simp [ValidDecimal] at h
  | cons c rest =>
    simp only [ValidDecimal] at h
    by_cases hs : (c = '+' || c = '-') = true
    · rw [if_pos hs] at h
      simp only [Bool.and_eq_true] at h
      obtain ⟨ds, e, m⟩ := parseDigits_of_digits rest h.2
      have hs' : (decide (c = '-') || decide (c = '+')) = true := by
        simp only [Bool.or_eq_true, decide_eq_true_eq] at hs ⊢
        exact hs.symm
      refine ⟨⟨ds, decide (c = '-')⟩, ?_, ?_⟩
      · simp only [ofString, hs', if_true, e, Outcome.ok_bind, Outcome.pure_eq]
      · simp only [Bool.or_eq_true, decide_eq_true_eq] at hs
        rcases hs with rfl | rfl
        · simp [toString, dropLeadingPlus, m]
        · simp [toString, dropLeadingPlus, m]
    · rw [if_neg hs] at h
      obtain ⟨ds, e, m⟩ := parseDigits_of_digits (c :: rest) h
      have hs' : ¬ (decide (c = '-') || decide (c = '+')) = true := by
        simp only [Bool.or_eq_true, decide_eq_true_eq] at hs ⊢
        tauto
      refine ⟨⟨ds, false⟩, ?_, ?_⟩
      · simp only [ofString, hs', if_false, e, Outcome.ok_bind, Outcome.pure_eq]
        simp
      · simp only [Bool.or_eq_true, decide_eq_true_eq, not_or] at hs
        have : dropLeadingPlus ⟨c :: rest⟩ = ⟨c :: rest⟩ := by
          unfold dropLeadingPlus
          split
          · rename_i heq
            simp only [List.cons.injEq] at heq
            exact absurd heq.1 hs.1
          · rfl
        rw [this]
        simp [toString, m]

/-- The input `"+5"` is converted to `"5"`. -/
theorem toString_ofString_plus_five :
    ValidDecimal "+5" = true ∧
    ∃ a, ofString "+5" = Outcome.ok a ∧ toString a = dropLeadingPlus "+5" :=
  ⟨by decide, toString_ofString "+5" (by decide)⟩

end BigInteger

namespace BigInteger

/-! ## Division by a zero that is not `ZERO` -/

theorem divLoop_zero_divisor : ∀ (fuel : Nat) (q : BigInteger), DigitsOk q.digits →
    divLoop ⟨[0], false⟩ fuel ⟨[5], false⟩ q = Outcome.outOfFuel := by
  intro fuel
  induction fuel with
  | zero => intro q _; rfl
  | succ n ih =>
    intro q hq
    obtain ⟨q1, e, h1, -⟩ := add_spec q ONE hq (by decide)
    have hge : ge ⟨[5], false⟩ ⟨[0], false⟩ = true := by decide
    have hsub : sub ⟨[5], false⟩ ⟨[0], false⟩ = Outcome.ok ⟨[5], false⟩ := by decide
    simp only [divLoop, hge, if_true, hsub, e, Outcome.ok_bind]
    exact ih q1 h1

/-- Claim C10 fails for the divisor `-ZERO`, which is also what the constructor returns for
`"-0"`: its value is zero, `other == ZERO` is false for it, and no exception is raised:
`"0" / "-0"` returns `NEGATIVE_ONE`, `"0" % "-0"` returns the negative zero, and the loop of
`"5" / "-0"` subtracts zero for ever (no amount of fuel is enough). -/
theorem div_mod_negative_zero :
    ofString "-0" = Outcome.ok ⟨[0], true⟩ ∧ neg ZERO = ⟨[0], true⟩ ∧
    toInt ⟨[0], true⟩ = 0 ∧
    (∀ fuel, div fuel ZERO ⟨[0], true⟩ = Outcome.ok NEGATIVE_ONE) ∧
    (∀ fuel, mod (fuel + 1) ZERO ⟨[0], true⟩ = Outcome.ok ⟨[0], true⟩) ∧
    (∀ fuel, div fuel ⟨[5], false⟩ ⟨[0], true⟩ = Outcome.outOfFuel) ∧
    div 0 ⟨[5], false⟩ ZERO = Outcome.thrown Err.divideByZero := by
  refine ⟨by decide, by decide, by decide, fun _ => rfl, fun _ => rfl, ?_, by decide⟩
  intro fuel
  have h : div fuel ⟨[5], false⟩ ⟨[0], true⟩
      = (divLoop ⟨[0], false⟩ fuel ⟨[5], false⟩ ZERO >>= fun quotient =>
          pure (if (false != true) = true then { quotient with isNegative := true }
            else quotient)) := rfl
  rw [h, divLoop_zero_divisor fuel ZERO (by decide)]
  rfl

/-! ## `operator==`, `operator<` and `abs` on normalized values -/

theorem eq_iff (a b : BigInteger) : eq a b = true ↔ a = b := by
  cases a with
  | mk da sa =>
    cases b with
    | mk db sb =>
      simp only [eq, Bool.and_eq_true, decide_eq_true_eq, beq_iff_eq, BigInteger.mk.injEq]
      constructor
      · rintro ⟨⟨_, h2⟩, h3⟩; exact ⟨h3, h2⟩
      · rintro ⟨h1, h2⟩; exact ⟨⟨by rw [h1], h2⟩, h1⟩

theorem Normalized.nonneg_of_toInt {a : BigInteger} (h : Normalized a) (hv : 0 ≤ toInt a) :
    a.isNegative = false := by
  by_contra hs
  have hs' : a.isNegative = true := by simpa using hs
  have := h.magnitude_ne_zero hs'
  have := magnitude_nonneg_of_digitsOk h.1
  rw [toInt_of_neg a hs'] at hv
  omega

theorem lt_iff_of_nonneg (a b : BigInteger) (ha : Normalized a) (hb : Normalized b)
    (hsa : a.isNegative = false) (hsb : b.isNegative = false) :
    (lt a b = true ↔ magnitude a.digits < magnitude b.digits) := by
  have hgt := gt_of_nonneg a b ha.1 hb.1 hsa hsb
  have heq := eq_iff a b
  simp only [lt, ge, Bool.not_eq_true', Bool.or_eq_false_iff]
  constructor
  · rintro ⟨h1, h2⟩
    have n1 : ¬ magnitude b.digits < magnitude a.digits := fun h => by
      rw [hgt.2 h] at h1; exact Bool.noConfusion h1
    have n2 : magnitude a.digits ≠ magnitude b.digits := by
      intro hm
      have hd := magnitude_inj a.digits b.digits ha.1 hb.1 ha.2.1 hb.2.1 hm
      have : a = b := by
        cases a; cases b
        simp only [BigInteger.mk.injEq]
        exact ⟨hd, by simp_all⟩
      rw [heq.2 this] at h2
      exact Bool.noConfusion h2
    omega
  · intro hlt
    constructor
    · by_contra h
      have := hgt.1 (by simpa using h)
      omega
    · by_contra h
      have := heq.1 (by simpa using h)
      rw [this] at hlt
      omega

theorem abs_spec (b : BigInteger) (hb : Normalized b) :
    Normalized (abs b) ∧ (abs b).isNegative = false ∧
      magnitude (abs b).digits = magnitude b.digits := by
  cases hs : b.isNegative
  · have hge : ge b ZERO = true := by
      by_cases h0 : magnitude b.digits = 0
      · have hd := magnitude_eq_zero b.digits hb.1 hb.2.1 h0
        have : b = ZERO := by
          cases b
          simp only [ZERO, BigInteger.mk.injEq]
          exact ⟨hd, hs⟩
        rw [this]; decide
      · have hpos : magnitude ZERO.digits < magnitude b.digits := by
          have := magnitude_nonneg_of_digitsOk hb.1
          show (0 : Int) < _
          omega
        simp only [ge, (gt_of_nonneg b ZERO hb.1 (by decide) hs rfl).2 hpos, Bool.true_or]
    simp only [abs, hge, if_true]
    exact ⟨hb, hs, trivial⟩
  · have hge : ge b ZERO = false := by
      have h1 : gt b ZERO = false := by simp [gt, hs, ZERO]
      have h2 : eq b ZERO = false := by simp [eq, hs, ZERO]
      simp [ge, h1, h2]
    simp only [abs, hge, Bool.false_eq_true, if_false]
    refine ⟨⟨hb.1, hb.2.1, fun _ => by simp [neg, hs]⟩, by simp [neg, hs], rfl⟩

theorem abs_toInt (a : BigInteger) (h : DigitsOk a.digits) :
    |toInt a| = magnitude a.digits := by
  have := magnitude_nonneg_of_digitsOk h
  cases hs : a.isNegative
  · rw [toInt_of_nonneg a hs, abs_of_nonneg this]
  · rw [toInt_of_neg a hs, abs_neg, abs_of_nonneg this]

/-! ## `operator*` -/

theorem mulLoop_spec (a m : BigInteger) (ha : Normalized a) (hm : Normalized m)
    (hsm : m.isNegative = false) :
    ∀ (n fuel : Nat) (i result : BigInteger), n < fuel → Normalized i → i.isNegative = false →
      magnitude i.digits + n = magnitude m.digits → Normalized result →
      ∃ r, mulLoop a m fuel i result = Outcome.ok r ∧ Normalized r ∧
        toInt r = toInt result + n * toInt a := by
  intro n
  induction n with
  | zero =>
    intro fuel i result hf hi hsi hk hr
    obtain ⟨f, rfl⟩ : ∃ f, fuel = f + 1 := ⟨fuel - 1, by omega⟩
    have hlt : lt i m = false := by
      by_contra h
      have := (lt_iff_of_nonneg i m hi hm hsi hsm).1 (by simpa using h)
      simp only [Nat.cast_zero, add_zero] at hk
      omega
    refine ⟨result, by simp only [mulLoop, hlt, Bool.false_eq_true, if_false, Outcome.pure_eq],
      hr, by simp⟩
  | succ k ih =>
    intro fuel i result hf hi hsi hk hr
    obtain ⟨f, rfl⟩ : ∃ f, fuel = f + 1 := ⟨fuel - 1, by omega⟩
    have hlt : lt i m = true :=
      (lt_iff_of_nonneg i m hi hm hsi hsm).2 (by push_cast at hk; omega)
    obtain ⟨r1, e1, n1, v1⟩ := add_of_normalized result a hr ha
    obtain ⟨i1, e2, n2, v2⟩ := add_of_normalized i ONE hi (by decide)
    have hv : toInt i1 = magnitude i.digits + 1 := by
      rw [v2, toInt_of_nonneg i hsi]; rfl
    have hi0 := magnitude_nonneg_of_digitsOk hi.1
    have hs1 : i1.isNegative = false := n2.nonneg_of_toInt (by omega)
    obtain ⟨r, e, nr, vr⟩ := ih f i1 r1 (by omega) n2 hs1
      (by rw [← toInt_of_nonneg i1 hs1, hv]; push_cast at hk; omega) n1
    refine ⟨r, ?_, nr, ?_⟩
    · simp only [mulLoop, hlt, if_true, e1, e2, Outcome.ok_bind, e]
    · rw [vr, v1]; push_cast; ring

/-- The result of `operator*` on normalized operands, given fuel for `|b|` passes of the loop. -/
theorem mul_spec (a b : BigInteger) (ha : Normalized a) (hb : Normalized b) (fuel : Nat)
    (hf : (toInt b).natAbs < fuel) :
    ∃ r, mul fuel a b = Outcome.ok r ∧ DigitsOk r.digits ∧
      (r.digits.head? = some 0 → r.digits = [0]) ∧
      r.isNegative = (a.isNegative != b.isNegative) ∧
      magnitude r.digits = magnitude a.digits * magnitude b.digits ∧
      toInt r = toInt a * toInt b := by
  obtain ⟨m1, m2, m3⟩ := abs_spec b hb
  have hbn := magnitude_nonneg_of_digitsOk hb.1
  have hnat : ((toInt b).natAbs : Int) = magnitude b.digits := by
    rw [Int.natCast_natAbs, abs_toInt b hb.1]
  obtain ⟨r0, e0, n0, v0⟩ := mulLoop_spec a (abs b) ha m1 m2 (toInt b).natAbs fuel ZERO ZERO hf
    (by decide) rfl (by rw [m3, hnat]; show (0 : Int) + _ = _; ring) (by decide)
  have hmag : magnitude r0.digits = magnitude a.digits * magnitude b.digits := by
    rw [← abs_toInt r0 n0.1, v0, hnat]
    have : toInt ZERO = 0 := by decide
    rw [this, zero_add, abs_mul, abs_toInt a ha.1, abs_of_nonneg hbn]; ring
  refine ⟨{ r0 with isNegative := a.isNegative != b.isNegative }, ?_, n0.1, n0.2.1, rfl, hmag, ?_⟩
  · simp only [mul, e0, Outcome.ok_bind, Outcome.pure_eq]
  · simp only [toInt, hmag]
    cases a.isNegative <;> cases b.isNegative <;> simp

/-- Claim C6: for normalized operands and fuel for the `|b|` passes of the loop, `a * b` returns
and the value of the result is the product of the values of the operands. -/
theorem mul_correct (a b : BigInteger) (ha : Normalized a) (hb : Normalized b) (fuel : Nat)
    (hf : (toInt b).natAbs < fuel) :
    ∃ r, mul fuel a b = Outcome.ok r ∧ toInt r = toInt a * toInt b := by
  obtain ⟨r, e, -, -, -, -, v⟩ := mul_spec a b ha hb fuel hf
  exact ⟨r, e, v⟩

/-- Claim C6 at `"-12" * "3"`, which is `"-36"`. -/
theorem mul_correct_witness :
    Normalized ⟨[1, 2], true⟩ ∧ Normalized ⟨[3], false⟩ ∧
    (toInt ⟨[3], false⟩).natAbs < 4 ∧
    (∃ r, mul 4 ⟨[1, 2], true⟩ ⟨[3], false⟩ = Outcome.ok r ∧
      toInt r = toInt ⟨[1, 2], true⟩ * toInt ⟨[3], false⟩) ∧
    mul 4 ⟨[1, 2], true⟩ ⟨[3], false⟩ = Outcome.ok ⟨[3, 6], true⟩ :=
  ⟨by decide, by decide, by decide, mul_correct _ _ (by decide) (by decide) 4 (by decide),
    by decide⟩

end BigInteger

namespace BigInteger

/-! ## `pow` -/

theorem powLoop_spec (a e : BigInteger) (ha : Normalized a) (he : Normalized e)
    (hse : e.isNegative = false) (mulFuel : Nat) (hmf : (toInt a).natAbs < mulFuel) :
    ∀ (n fuel : Nat) (i result : BigInteger), n < fuel → Normalized i → i.isNegative = false →
      magnitude i.digits + n = magnitude e.digits → Normalized result →
      (toInt a ≠ 0 → toInt result ≠ 0) → (toInt a = 0 → result.isNegative = false) →
      ∃ r, powLoop a e mulFuel fuel i result = Outcome.ok r ∧ Normalized r ∧
        toInt r = toInt result * toInt a ^ n := by
  intro n
  induction n with
  | zero =>
    intro fuel i result hf hi hsi hk hr _ _
    obtain ⟨f, rfl⟩ : ∃ f, fuel = f + 1 := ⟨fuel - 1, by omega⟩
    have hlt : lt i e = false := by
      by_contra h
      have := (lt_iff_of_nonneg i e hi he hsi hse).1 (by simpa using h)
      simp only [Nat.cast_zero, add_zero] at hk
      omega
    refine ⟨result, by simp only [powLoop, hlt, Bool.false_eq_true, if_false, Outcome.pure_eq],
      hr, by simp⟩
  | succ k ih =>
    intro fuel i result hf hi hsi hk hr hnz hz
    obtain ⟨f, rfl⟩ : ∃ f, fuel = f + 1 := ⟨fuel - 1, by omega⟩
    have hlt : lt i e = true :=
      (lt_iff_of_nonneg i e hi he hsi hse).2 (by push_cast at hk; omega)
    obtain ⟨r1, e1, d1, z1, s1, g1, v1⟩ := mul_spec result a hr ha mulFuel hmf
    -- the product is normalized: it is a negative zero only if `a` is zero, and then the
    -- sign flag is the one of `result`, which is false
    have n1 : Normalized r1 := by
      refine ⟨d1, z1, fun h0 => ?_⟩
      have hm0 : magnitude r1.digits = 0 := by rw [h0]; rfl
      have hv0 : toInt r1 = 0 := by simp [toInt, hm0]
      have ha0 : toInt a = 0 := by
        by_contra hne
        rw [v1] at hv0
        rcases mul_eq_zero.1 hv0 with h | h
        · exact hnz hne h
        · exact hne h
      have hsa : a.isNegative = false := ha.nonneg_of_toInt (by omega)
      rw [s1, hz ha0, hsa]; rfl
    obtain ⟨i1, e2, n2, v2⟩ := add_of_normalized i ONE hi (by decide)
    have hv : toInt i1 = magnitude i.digits + 1 := by
      rw [v2, toInt_of_nonneg i hsi]; rfl
    have hi0 := magnitude_nonneg_of_digitsOk hi.1
    have hs1 : i1.isNegative = false := n2.nonneg_of_toInt (by omega)
    obtain ⟨r, er, nr, vr⟩ := ih f i1 r1 (by omega) n2 hs1
      (by rw [← toInt_of_nonneg i1 hs1, hv]; push_cast at hk; omega) n1
      (fun hne => by rw [v1]; exact mul_ne_zero (hnz hne) hne)
      (fun h0 => by
        have hsa : a.isNegative = false := ha.nonneg_of_toInt (by omega)
        rw [s1, hz h0, hsa]; rfl)
    refine ⟨r, ?_, nr, ?_⟩
    · simp only [powLoop, hlt, if_true, e1, e2, Outcome.ok_bind, er]
    · rw [vr, v1, pow_succ]; ring

theorem eq_zero_of_toInt {e : BigInteger} (he : Normalized e) (h : toInt e = 0) : e = ZERO := by
  have hs : e.isNegative = false := he.nonneg_of_toInt (by omega)
  rw [toInt_of_nonneg e hs] at h
  have hd := magnitude_eq_zero e.digits he.1 he.2.1 h
  cases e
  simp only [ZERO, BigInteger.mk.injEq]
  exact ⟨hd, hs⟩

/-- Claim C7: for normalized operands `base.pow(exponent)` is `ZERO` for a negative exponent,
`ONE` for the exponent `ZERO`, whatever the base, and otherwise, given fuel for the passes of
its loops, a normalized value denoting the value of the base raised to that of the exponent. -/
theorem pow_correct (base exponent : BigInteger) (hb : Normalized base)
    (he : Normalized exponent) :
    (toInt exponent < 0 → ∀ fuel, pow fuel base exponent = Outcome.ok ZERO) ∧
    (toInt exponent = 0 → ∀ fuel, pow fuel base exponent = Outcome.ok ONE) ∧
    (0 < toInt exponent → ∀ fuel, (toInt base).natAbs < fuel → (toInt exponent).natAbs < fuel →
      ∃ r, pow fuel base exponent = Outcome.ok r ∧ Normalized r ∧
        toInt r = toInt base ^ (toInt exponent).toNat) := by
  have hmag := magnitude_nonneg_of_digitsOk he.1
  refine ⟨fun hneg fuel => ?_, fun h0 fuel => ?_, fun hpos fuel hf1 hf2 => ?_⟩
  · have hs : exponent.isNegative = true := by
      by_contra h
      have h' : exponent.isNegative = false := by simpa using h
      rw [toInt_of_nonneg exponent h'] at hneg
      omega
    have hlt : lt exponent ZERO = true := by simp [lt, ge, gt, eq, hs, ZERO]
    simp only [pow, hlt, if_true, Outcome.pure_eq]
  · rw [eq_zero_of_toInt he h0]
    rfl
  · have hs : exponent.isNegative = false := he.nonneg_of_toInt (by omega)
    have hm : 0 < magnitude exponent.digits := by rwa [toInt_of_nonneg exponent hs] at hpos
    have hlt : lt exponent ZERO = false := by
      by_contra h
      have := (lt_iff_of_nonneg exponent ZERO he (by decide) hs rfl).1 (by simpa using h)
      have hz : magnitude ZERO.digits = 0 := rfl
      omega
    have hne : eq exponent ZERO = false := by
      by_contra h
      have := (eq_iff exponent ZERO).1 (by simpa using h)
      rw [this] at hm
      exact absurd hm (by decide)
    by_cases h1 : eq exponent ONE = true
    · have e1 := (eq_iff exponent ONE).1 h1
      refine ⟨base, ?_, hb, ?_⟩
      · simp only [pow, hlt, hne, h1, Bool.false_eq_true, if_false, if_true, Outcome.pure_eq]
      · rw [e1]
        have : (toInt ONE).toNat = 1 := by decide
        rw [this, pow_one]
    · have hnat : ((toInt exponent).natAbs : Int) = magnitude exponent.digits := by
        rw [Int.natCast_natAbs, abs_toInt exponent he.1]
      obtain ⟨r, er, nr, vr⟩ := powLoop_spec base exponent hb he hs fuel hf1
        (toInt exponent).natAbs fuel ZERO ONE hf2 (by decide) rfl
        (by rw [hnat]; show (0 : Int) + _ = _; ring) (by decide)
        (fun _ => by decide) (fun _ => rfl)
      refine ⟨r, ?_, nr, ?_⟩
      · simp only [pow, hlt, hne, h1, Bool.false_eq_true, if_false]
        exact er
      · have h2 : (toInt exponent).toNat = (toInt exponent).natAbs := by omega
        have h3 : toInt ONE = 1 := by decide
        rw [vr, h2, h3, one_mul]

set_option maxRecDepth 100000 in
/-- Claim C7 at the base `"2"`: the exponents `"-3"` and `"0"` give `ZERO` and `ONE`, and with
the exponent `"10"` the theorem applies and the result is `"1024"`. -/
theorem pow_correct_witness :
    toInt ⟨[3], true⟩ < 0 ∧ toInt ZERO = 0 ∧ 0 < toInt ⟨[1, 0], false⟩ ∧
    (toInt TWO).natAbs < 11 ∧ (toInt ⟨[1, 0], false⟩).natAbs < 11 ∧
    pow 11 TWO ⟨[3], true⟩ = Outcome.ok ZERO ∧ pow 11 TWO ZERO = Outcome.ok ONE ∧
    (∃ r, pow 11 TWO ⟨[1, 0], false⟩ = Outcome.ok r ∧ Normalized r ∧
      toInt r = toInt TWO ^ (toInt ⟨[1, 0], false⟩).toNat) ∧
    pow 11 TWO ⟨[1, 0], false⟩ = Outcome.ok ⟨[1, 0, 2, 4], false⟩ :=
  ⟨by decide, by decide, by decide, by decide, by decide,
    (pow_correct TWO ⟨[3], true⟩ (by decide) (by decide)).1 (by decide) 11,
    (pow_correct TWO ZERO (by decide) (by decide)).2.1 (by decide) 11,
    (pow_correct TWO ⟨[1, 0], false⟩ (by decide) (by decide)).2.2 (by decide) 11
      (by decide) (by decide),
    by decide⟩

end BigInteger

namespace BigInteger

/-! ## The comparison operators on normalized values -/

theorem gt_iff (a b : BigInteger) (ha : Normalized a) (hb : Normalized b) :
    (gt a b = true ↔ toInt b < toInt a) := by
  have na := magnitude_nonneg_of_digitsOk ha.1
  have nb := magnitude_nonneg_of_digitsOk hb.1
  cases hsa : a.isNegative <;> cases hsb : b.isNegative
  · rw [gt_of_nonneg a b ha.1 hb.1 hsa hsb, toInt_of_nonneg a hsa, toInt_of_nonneg b hsb]
  · have := hb.magnitude_ne_zero hsb
    have hg : gt a b = true := by simp [gt, hsa, hsb]
    rw [toInt_of_nonneg a hsa, toInt_of_neg b hsb, hg]
    constructor
    · intro _; omega
    · intro _; rfl
  · have := ha.magnitude_ne_zero hsa
    have hg : gt a b = false := by simp [gt, hsa, hsb]
    rw [toInt_of_neg a hsa, toInt_of_nonneg b hsb, hg]
    constructor
    · intro h; exact absurd h (by decide)
    · intro h; omega
  · rw [gt_of_neg a b ha.1 hb.1 hsa hsb, toInt_of_neg a hsa, toInt_of_neg b hsb]
    constructor <;> intro h <;> omega

theorem eq_iff_toInt (a b : BigInteger) (ha : Normalized a) (hb : Normalized b) :
    (eq a b = true ↔ toInt a = toInt b) := by
  rw [eq_iff]
  constructor
  · intro h; rw [h]
  · intro h
    have na := magnitude_nonneg_of_digitsOk ha.1
    have nb := magnitude_nonneg_of_digitsOk hb.1
    have key : a.isNegative = b.isNegative ∧ magnitude a.digits = magnitude b.digits := by
      cases hsa : a.isNegative <;> cases hsb : b.isNegative
      · rw [toInt_of_nonneg a hsa, toInt_of_nonneg b hsb] at h
        exact ⟨rfl, h⟩
      · have := hb.magnitude_ne_zero hsb
        rw [toInt_of_nonneg a hsa, toInt_of_neg b hsb] at h
        omega
      · have := ha.magnitude_ne_zero hsa
        rw [toInt_of_neg a hsa, toInt_of_nonneg b hsb] at h
        omega
      · rw [toInt_of_neg a hsa, toInt_of_neg b hsb] at h
        exact ⟨rfl, by omega⟩
    have hd := magnitude_inj a.digits b.digits ha.1 hb.1 ha.2.1 hb.2.1 key.2
    cases a; cases b
    simp only [BigInteger.mk.injEq]
    exact ⟨hd, key.1⟩

theorem ge_iff (a b : BigInteger) (ha : Normalized a) (hb : Normalized b) :
    (ge a b = true ↔ toInt b ≤ toInt a) := by
  simp only [ge, Bool.or_eq_true, gt_iff a b ha hb, eq_iff_toInt a b ha hb]
  omega

theorem lt_iff (a b : BigInteger) (ha : Normalized a) (hb : Normalized b) :
    (lt a b = true ↔ toInt a < toInt b) := by
  have h := ge_iff a b ha hb
  simp only [lt, Bool.not_eq_true', ← Bool.not_eq_true, h]
  omega

theorem le_iff (a b : BigInteger) (ha : Normalized a) (hb : Normalized b) :
    (le a b = true ↔ toInt a ≤ toInt b) := by
  have h := gt_iff a b ha hb
  simp only [le, Bool.not_eq_true', ← Bool.not_eq_true, h]
  omega

/-- Claim C13: on normalized operands `>`, `>=`, `<`, `<=` and `==` agree with the order and
the equality of the integers denoted, and exactly one of `a < b`, `a == b`, `a > b` holds. -/
theorem comparison_correct (a b : BigInteger) (ha : Normalized a) (hb : Normalized b) :
    (gt a b = true ↔ toInt a > toInt b) ∧ (ge a b = true ↔ toInt a ≥ toInt b) ∧
    (lt a b = true ↔ toInt a < toInt b) ∧ (le a b = true ↔ toInt a ≤ toInt b) ∧
    (eq a b = true ↔ toInt a = toInt b) ∧
    ((lt a b = true ∧ eq a b = false ∧ gt a b = false) ∨
      (lt a b = false ∧ eq a b = true ∧ gt a b = false) ∨
      (lt a b = false ∧ eq a b = false ∧ gt a b = true)) := by
  have h1 := gt_iff a b ha hb
  have h2 := ge_iff a b ha hb
  have h3 := lt_iff a b ha hb
  have h4 := le_iff a b ha hb
  have h5 := eq_iff_toInt a b ha hb
  refine ⟨h1, h2, h3, h4, h5, ?_⟩
  have f1 : ∀ x : Bool, x = false ↔ ¬ x = true := fun x => by cases x <;> simp
  simp only [f1, h1, h3, h5]
  omega

/-- Claim C13 at `a = "-12"`, `b = "7"`, where only `a < b` (and `a <= b`) holds. -/
theorem comparison_correct_witness :
    Normalized ⟨[1, 2], true⟩ ∧ Normalized ⟨[7], false⟩ ∧
    ((gt ⟨[1, 2], true⟩ ⟨[7], false⟩ = true ↔ toInt ⟨[1, 2], true⟩ > toInt ⟨[7], false⟩) ∧
    (ge ⟨[1, 2], true⟩ ⟨[7], false⟩ = true ↔ toInt ⟨[1, 2], true⟩ ≥ toInt ⟨[7], false⟩) ∧
    (lt ⟨[1, 2], true⟩ ⟨[7], false⟩ = true ↔ toInt ⟨[1, 2], true⟩ < toInt ⟨[7], false⟩) ∧
    (le ⟨[1, 2], true⟩ ⟨[7], false⟩ = true ↔ toInt ⟨[1, 2], true⟩ ≤ toInt ⟨[7], false⟩) ∧
    (eq ⟨[1, 2], true⟩ ⟨[7], false⟩ = true ↔ toInt ⟨[1, 2], true⟩ = toInt ⟨[7], false⟩) ∧
    ((lt ⟨[1, 2], true⟩ ⟨[7], false⟩ = true ∧ eq ⟨[1, 2], true⟩ ⟨[7], false⟩ = false ∧
        gt ⟨[1, 2], true⟩ ⟨[7], false⟩ = false) ∨
      (lt ⟨[1, 2], true⟩ ⟨[7], false⟩ = false ∧ eq ⟨[1, 2], true⟩ ⟨[7], false⟩ = true ∧
        gt ⟨[1, 2], true⟩ ⟨[7], false⟩ = false) ∨
      (lt ⟨[1, 2], true⟩ ⟨[7], false⟩ = false ∧ eq ⟨[1, 2], true⟩ ⟨[7], false⟩ = false ∧
        gt ⟨[1, 2], true⟩ ⟨[7], false⟩ = true))) ∧
    lt ⟨[1, 2], true⟩ ⟨[7], false⟩ = true :=
  ⟨by decide, by decide, comparison_correct _ _ (by decide) (by decide), by decide⟩

end BigInteger

namespace BigInteger

/-! ## `operator/` on a non-negative dividend -/

theorem sub_of_normalized (a b : BigInteger) (ha : Normalized a) (hb : Normalized b) :
    ∃ r, sub a b = Outcome.ok r ∧ Normalized r ∧ toInt r = toInt a - toInt b := by
  obtain ⟨r, e, n, v⟩ := add_normalized a (neg b) ha.1 hb.1 (Or.inl ha.magnitude_ne_zero)
  exact ⟨r, e, n, by rw [v, toInt_neg]; ring⟩

theorem toInt_abs (b : BigInteger) (hb : Normalized b) : toInt (abs b) = |toInt b| := by
  obtain ⟨-, m2, m3⟩ := abs_spec b hb
  rw [toInt_of_nonneg (abs b) m2, m3, abs_toInt b hb.1]

theorem neg_normalized (a : BigInteger) (ha : Normalized a) (h0 : toInt a ≠ 0) :
    Normalized (neg a) := by
  refine ⟨ha.1, ha.2.1, fun hd => ?_⟩
  exfalso
  apply h0
  have hm : magnitude a.digits = 0 := by
    have : a.digits = [0] := hd
    rw [this]; rfl
  simp [toInt, hm]

theorem setNegative_normalized (q : BigInteger) (hq : Normalized q) (h0 : 0 < toInt q) :
    Normalized { q with isNegative := true } ∧
      toInt { q with isNegative := true } = -(toInt q) := by
  have hs : q.isNegative = false := hq.nonneg_of_toInt (by omega)
  rw [toInt_of_nonneg q hs] at h0
  refine ⟨⟨hq.1, hq.2.1, fun hd => ?_⟩, ?_⟩
  · exfalso
    have : q.digits = [0] := hd
    rw [this] at h0
    exact absurd h0 (by decide)
  · rw [toInt_of_nonneg q hs]
    simp [toInt]

theorem divLoop_spec (d : BigInteger) (hd : Normalized d) (hD : 0 < toInt d) :
    ∀ (n fuel : Nat) (rem q : BigInteger), n < fuel → Normalized rem →
      (n : Int) * toInt d ≤ toInt rem → toInt rem < ((n : Int) + 1) * toInt d →
      Normalized q → 0 ≤ toInt q →
      ∃ r, divLoop d fuel rem q = Outcome.ok r ∧ Normalized r ∧ toInt r = toInt q + n := by
  intro n
  induction n with
  | zero =>
    intro fuel rem q hf hrem _ hhi hq _
    obtain ⟨f, rfl⟩ : ∃ f, fuel = f + 1 := ⟨fuel - 1, by omega⟩
    have hge : ge rem d = false := by
      by_contra h
      have := (ge_iff rem d hrem hd).1 (by simpa using h)
      simp only [Nat.cast_zero, zero_add, one_mul] at hhi
      omega
    exact ⟨q, by simp only [divLoop, hge, Bool.false_eq_true, if_false, Outcome.pure_eq], hq,
      by simp⟩
  | succ k ih =>
    intro fuel rem q hf hrem hlo hhi hq hq0
    obtain ⟨f, rfl⟩ : ∃ f, fuel = f + 1 := ⟨fuel - 1, by omega⟩
    push_cast at hlo hhi
    have hk : (0 : Int) ≤ (k : Int) * toInt d := by positivity
    have hge : ge rem d = true := (ge_iff rem d hrem hd).2 (by nlinarith)
    obtain ⟨rem1, e1, n1, v1⟩ := sub_of_normalized rem d hrem hd
    obtain ⟨q1, e2, n2, v2⟩ := add_of_normalized q ONE hq (by decide)
    have hone : toInt ONE = 1 := by decide
    obtain ⟨r, er, nr, vr⟩ := ih f rem1 q1 (by omega) n1 (by rw [v1]; nlinarith)
      (by rw [v1]; nlinarith) n2 (by rw [v2, hone]; omega)
    refine ⟨r, ?_, nr, ?_⟩
    · simp only [divLoop, hge, if_true, e1, e2, Outcome.ok_bind, er]
    · rw [vr, v2, hone]; push_cast; ring

theorem tdiv_of_nonneg (a d : Int) (ha : 0 ≤ a) (hd : 0 < d) :
    Int.tdiv a d = a / d ∧ Int.tdiv a (-d) = -(a / d) := by
  have h := Int.tdiv_eq_ediv ha (le_of_lt hd)
  exact ⟨h, by rw [Int.tdiv_neg, h]⟩

theorem toInt_eq_abs_or (b : BigInteger) (hb : DigitsOk b.digits) :
    (b.isNegative = false ∧ toInt b = |toInt b|) ∨ (b.isNegative = true ∧ toInt b = -|toInt b|) := by
  have := magnitude_nonneg_of_digitsOk hb
  rw [abs_toInt b hb]
  cases hs : b.isNegative
  · exact Or.inl ⟨rfl, toInt_of_nonneg b hs⟩
  · exact Or.inr ⟨rfl, toInt_of_neg b hs⟩

/-- The result of `operator/` for a non-negative dividend and a divisor that is not zero, given
fuel for the passes of the loop. -/
theorem div_spec (a b : BigInteger) (ha : Normalized a) (hb : Normalized b)
    (hnn : 0 ≤ toInt a) (hb0 : toInt b ≠ 0) (fuel : Nat) (hf : (toInt a).natAbs < fuel) :
    ∃ r, div fuel a b = Outcome.ok r ∧ Normalized r ∧
      toInt r = Int.tdiv (toInt a) (toInt b) := by
  have hsa : a.isNegative = false := ha.nonneg_of_toInt hnn
  obtain ⟨nd, -, -⟩ := abs_spec b hb
  have vd := toInt_abs b hb
  have vn := toInt_abs a ha
  obtain ⟨nn, -, -⟩ := abs_spec a ha
  have hD : 0 < |toInt b| := abs_pos.2 hb0
  rw [abs_of_nonneg hnn] at vn
  have hne : eq b ZERO = false := by
    by_contra h
    have := (eq_iff_toInt b ZERO hb (by decide)).1 (by simpa using h)
    exact hb0 this
  have hzero : toInt ZERO = 0 := by decide
  have hone : toInt ONE = 1 := by decide
  obtain ⟨t1, t2⟩ := tdiv_of_nonneg (toInt a) |toInt b| hnn hD
  simp only [div, hne, Bool.false_eq_true, if_false, hsa, Outcome.pure_eq]
  by_cases c1 : lt (abs a) (abs b) = true
  · have hlt := (lt_iff (abs a) (abs b) nn nd).1 c1
    rw [vn, vd] at hlt
    refine ⟨ZERO, by simp only [c1, if_true], by decide, ?_⟩
    have hq : toInt a / |toInt b| = 0 := Int.ediv_eq_zero_of_lt hnn hlt
    rw [hzero]
    rcases toInt_eq_abs_or b hb.1 with ⟨-, e⟩ | ⟨-, e⟩
    · rw [e, t1, hq]
    · rw [e, t2, hq]; rfl
  · have hge : |toInt b| ≤ toInt a := by
      by_contra h
      exact c1 ((lt_iff (abs a) (abs b) nn nd).2 (by rw [vn, vd]; omega))
    simp only [c1, Bool.false_eq_true, if_false]
    by_cases c2 : eq (abs b) ONE = true
    · have h1 : |toInt b| = 1 := by
        have := (eq_iff_toInt (abs b) ONE nd (by decide)).1 c2
        rw [vd, hone] at this; exact this
      simp only [c2, if_true]
      rcases toInt_eq_abs_or b hb.1 with ⟨s, e⟩ | ⟨s, e⟩
      · refine ⟨a, by simp [s], ha, ?_⟩
        rw [e, h1]; simp
      · refine ⟨neg a, by simp [s], neg_normalized a ha (by omega), ?_⟩
        rw [toInt_neg, e, h1]; simp
    · simp only [c2, Bool.false_eq_true, if_false]
      by_cases c3 : eq (abs a) (abs b) = true
      · have h1 : toInt a = |toInt b| := by
          have := (eq_iff_toInt (abs a) (abs b) nn nd).1 c3
          rw [vn, vd] at this; exact this
        simp only [c3, if_true]
        rcases toInt_eq_abs_or b hb.1 with ⟨s, e⟩ | ⟨s, e⟩
        · refine ⟨ONE, by simp [s], by decide, ?_⟩
          rw [hone, h1, ← e, Int.tdiv_self hb0]
        · refine ⟨NEGATIVE_ONE, by simp [s], by decide, ?_⟩
          have hm : toInt NEGATIVE_ONE = -1 := by decide
          have hbb : toInt b = -|toInt b| := e
          rw [hm, h1, hbb, Int.tdiv_neg, abs_neg, abs_abs, Int.tdiv_self (ne_of_gt hD)]
      · have hgt : |toInt b| < toInt a := by
          have : toInt a ≠ |toInt b| := fun h =>
            c3 ((eq_iff_toInt (abs a) (abs b) nn nd).2 (by rw [vn, vd]; exact h))
          omega
        simp only [c3, Bool.false_eq_true, if_false]
        have hq0 : 0 ≤ toInt a / |toInt b| := Int.ediv_nonneg hnn (le_of_lt hD)
        have hq1 : 1 ≤ toInt a / |toInt b| := by
          have := Int.lt_ediv_add_one_mul_self (toInt a) hD
          by_contra h
          have h0 : toInt a / |toInt b| = 0 := by omega
          rw [h0] at this
          omega
        have hlo := Int.ediv_mul_le (toInt a) (ne_of_gt hD)
        have hhi := Int.lt_ediv_add_one_mul_self (toInt a) hD
        have hcast : (((toInt a / |toInt b|).toNat : Nat) : Int) = toInt a / |toInt b| :=
          Int.toNat_of_nonneg hq0
        have hfuel : (toInt a / |toInt b|).toNat < fuel := by
          have : toInt a / |toInt b| ≤ toInt a := Int.ediv_le_self _ hnn
          omega
        obtain ⟨q, eq1, nq, vq⟩ := divLoop_spec (abs b) nd (by rw [vd]; exact hD)
          (toInt a / |toInt b|).toNat fuel a ZERO hfuel ha
          (by rw [hcast, vd]; exact hlo) (by rw [hcast, vd]; exact hhi) (by decide)
          (by rw [hzero])
        rw [hcast, hzero, zero_add] at vq
        rcases toInt_eq_abs_or b hb.1 with ⟨s, e⟩ | ⟨s, e⟩
        · refine ⟨q, by simp [s, eq1, Outcome.ok_bind], nq, ?_⟩
          rw [vq, ← t1, ← e]
        · obtain ⟨ns, vs⟩ := setNegative_normalized q nq (by omega)
          refine ⟨{ q with isNegative := true }, by simp [s, eq1, Outcome.ok_bind], ns, ?_⟩
          rw [vs, vq, ← t2, ← e]

/-- Claim C18: for a normalized dividend of non-negative value and a normalized divisor other
than zero, of either sign, `a / b` returns, given fuel for the passes of its loop, the normalized
value that denotes the quotient of the values truncated toward zero. -/
theorem div_nonneg_dividend (a b : BigInteger) (ha : Normalized a) (hb : Normalized b)
    (hnn : 0 ≤ toInt a) (hb0 : toInt b ≠ 0) (fuel : Nat) (hf : (toInt a).natAbs < fuel) :
    ∃ r, div fuel a b = Outcome.ok r ∧ Normalized r ∧
      toInt r = Int.tdiv (toInt a) (toInt b) :=
  div_spec a b ha hb hnn hb0 fuel hf

/-- Claim C18 at `"100" / "-7"`, which is `"-14"`. -/
theorem div_nonneg_dividend_witness :
    Normalized ⟨[1, 0, 0], false⟩ ∧ Normalized ⟨[7], true⟩ ∧ 0 ≤ toInt ⟨[1, 0, 0], false⟩ ∧
    toInt ⟨[7], true⟩ ≠ 0 ∧ (toInt ⟨[1, 0, 0], false⟩).natAbs < 101 ∧
    (∃ r, div 101 ⟨[1, 0, 0], false⟩ ⟨[7], true⟩ = Outcome.ok r ∧ Normalized r ∧
      toInt r = Int.tdiv (toInt ⟨[1, 0, 0], false⟩) (toInt ⟨[7], true⟩)) ∧
    div 101 ⟨[1, 0, 0], false⟩ ⟨[7], true⟩ = Outcome.ok ⟨[1, 4], true⟩ :=
  ⟨by decide, by decide, by decide, by decide, by decide,
    div_nonneg_dividend _ _ (by decide) (by decide) (by decide) (by decide) 101 (by decide),
    by decide⟩

end BigInteger

namespace BigInteger

/-! ## Termination of the loops of `operator/`, `operator%` and `operator*` -/

theorem eq_ZERO_false (b : BigInteger) (hb : Normalized b) (hb0 : toInt b ≠ 0) :
    eq b ZERO = false := by
  by_contra h
  exact hb0 ((eq_iff_toInt b ZERO hb (by decide)).1 (by simpa using h))

end BigInteger

namespace BigInteger

/-! ## The sign flag of a zero result -/

/-- Claim C14 fails at `"-5" * "0"`: both operands are normalized, the loop makes no pass, and
the sign assignment sets the flag on the zero result, which is not normalized. The same holds
for `"0" % "-5"` and for `"-17" / "5"`. -/
theorem zero_results_keep_sign :
    Normalized ⟨[5], true⟩ ∧ Normalized ZERO ∧ Normalized ⟨[1, 7], true⟩ ∧
    Normalized ⟨[5], false⟩ ∧
    (∀ fuel, mul (fuel + 1) ⟨[5], true⟩ ZERO = Outcome.ok ⟨[0], true⟩) ∧
    (∀ fuel, mod fuel ZERO ⟨[5], true⟩ = Outcome.ok ⟨[0], true⟩) ∧
    (∀ fuel, div (fuel + 1) ⟨[1, 7], true⟩ ⟨[5], false⟩ = Outcome.ok ⟨[0], true⟩) ∧
    ¬ Normalized ⟨[0], true⟩ :=
  ⟨by decide, by decide, by decide, by decide, fun _ => rfl, fun _ => rfl, fun _ => rfl,
    by decide⟩

/-- Claim C15 fails at `ZERO`: unary minus inverts the sign flag of every value, so `-ZERO` has
digits `[0]` and a set sign flag, and `-ZERO == ZERO` is false. For a value other than zero the
flag is inverted and the digits are kept, as claimed. -/
theorem neg_zero_sets_sign :
    neg ZERO = ⟨[0], true⟩ ∧ (neg ZERO).isNegative = true ∧ eq (neg ZERO) ZERO = false ∧
    toInt (neg ZERO) = toInt ZERO ∧
    (∀ a : BigInteger, (neg a).digits = a.digits ∧ (neg a).isNegative = !a.isNegative) :=
  ⟨by decide, by decide, by decide, by decide, fun _ => ⟨rfl, rfl⟩⟩

/-- Claim C16 fails at `a = "-1"`, `b = "1"`, `c = "-1"`: `b + c` is `ZERO`, `a * (b + c)` is the
zero with a set sign flag, `a * b + a * c` is `ZERO`, and `operator==` tells them apart although
both denote 0. -/
theorem distributivity_fails :
    Normalized ⟨[1], true⟩ ∧ Normalized ⟨[1], false⟩ ∧
    (∀ fuel,
      (do
        let s ← add ⟨[1], false⟩ ⟨[1], true⟩
        let left ← mul (fuel + 2) ⟨[1], true⟩ s
        let p1 ← mul (fuel + 2) ⟨[1], true⟩ ⟨[1], false⟩
        let p2 ← mul (fuel + 2) ⟨[1], true⟩ ⟨[1], true⟩
        let right ← add p1 p2
        pure (left, right, eq left right))
      = Outcome.ok (⟨[0], true⟩, ⟨[0], false⟩, false)) ∧
    toInt ⟨[0], true⟩ = toInt ⟨[0], false⟩ :=
  ⟨by decide, by decide, fun _ => rfl, by decide⟩

/-- Claim C17 fails at `"-5" / "1"` and at `"-5" / "-1"`: the fast path for `|b| == 1` returns
`-(*this)` when the signs differ and `*this` when they agree, so the first quotient is 5, not
negative although exactly one operand is negative, and the second is -5. -/
theorem div_by_unit_sign :
    Normalized ⟨[5], true⟩ ∧ Normalized ONE ∧ Normalized NEGATIVE_ONE ∧
    (∀ fuel, div fuel ⟨[5], true⟩ ONE = Outcome.ok ⟨[5], false⟩) ∧
    (∀ fuel, div fuel ⟨[5], true⟩ NEGATIVE_ONE = Outcome.ok ⟨[5], true⟩) ∧
    toInt ⟨[5], false⟩ ≠ 0 ∧
    Int.tdiv (toInt ⟨[5], true⟩) (toInt ONE) = -5 ∧
    Int.tdiv (toInt ⟨[5], true⟩) (toInt NEGATIVE_ONE) = 5 :=
  ⟨by decide, by decide, by decide, fun _ => rfl, fun _ => rfl, by decide, by decide,
    by decide⟩

end BigInteger

namespace BigInteger

/-! ## `sqrt` -/

theorem newton_step_bounds (x c q s c1 : Int) (hx : 1 ≤ x) (hc : 1 ≤ c) (hcx : c ≤ x)
    (hq : q = x / c) (hs : s = c + q) (hc1 : c1 = s / 2) :
    0 ≤ q ∧ q ≤ x ∧ 1 ≤ c1 ∧ c1 ≤ x ∧ x < (c1 + 1) * (c1 + 1) := by
  have hc0 : 0 < c := by omega
  have q0 : 0 ≤ q := by rw [hq]; exact Int.ediv_nonneg (by omega) (by omega)
  have qx : q ≤ x := by rw [hq]; exact Int.ediv_le_self _ (by omega)
  have hhi : x < (q + 1) * c := by rw [hq]; exact Int.lt_ediv_add_one_mul_self x hc0
  have hs2 : 2 ≤ s := by
    by_cases h1 : c = 1
    · rw [h1] at hhi; omega
    · omega
  have h2 : s + 1 ≤ 2 * (c1 + 1) := by omega
  have h3 : (s + 1) * (s + 1) ≤ (2 * (c1 + 1)) * (2 * (c1 + 1)) :=
    mul_self_le_mul_self (by omega) h2
  have h4 : 4 * ((q + 1) * c) ≤ (s + 1) * (s + 1) := by
    rw [hs]; nlinarith [sq_nonneg (c - q - 1)]
  refine ⟨q0, qx, by omega, by omega, ?_⟩
  nlinarith

theorem sqrtLoop_spec (x : BigInteger) (hx : Normalized x) (hx1 : 1 ≤ toInt x) (fuel : Nat)
    (hf : 2 * (toInt x).natAbs < fuel) :
    ∀ (n : Nat) (c : BigInteger), Normalized c → 1 ≤ toInt c → toInt c ≤ toInt x →
      toInt x < (toInt c + 1) * (toInt c + 1) →
      ∃ r, sqrtLoop fuel x n c = Outcome.ok r ∧ Normalized r ∧ 1 ≤ toInt r ∧
        toInt r ≤ toInt x ∧ toInt x < (toInt r + 1) * (toInt r + 1) := by
  intro n
  induction n with
  | zero =>
    intro c hc h1 h2 h3
    exact ⟨c, rfl, hc, h1, h2, h3⟩
  | succ k ih =>
    intro c hc h1 h2 _
    obtain ⟨q, e1, nq, vq⟩ := div_spec x c hx hc (by omega) (by omega) fuel (by omega)
    rw [Int.tdiv_eq_ediv (by omega) (by omega)] at vq
    obtain ⟨s, e2, ns, vs⟩ := add_of_normalized c q hc nq
    have htwo : toInt TWO = 2 := by decide
    obtain ⟨b1, b2, -, -, -⟩ := newton_step_bounds (toInt x) (toInt c) (toInt q) (toInt s)
      ((toInt s) / 2) hx1 h1 h2 vq vs rfl
    obtain ⟨c1, e3, n1, v1⟩ := div_spec s TWO ns (by decide) (by omega) (by decide) fuel
      (by omega)
    rw [htwo, Int.tdiv_eq_ediv (by omega) (by omega)] at v1
    obtain ⟨-, -, b3, b4, b5⟩ := newton_step_bounds (toInt x) (toInt c) (toInt q) (toInt s)
      (toInt c1) hx1 h1 h2 vq vs v1
    obtain ⟨r, er, nr, r1, r2, r3⟩ := ih c1 n1 b3 b4 b5
    exact ⟨r, by simp only [sqrtLoop, e1, e2, e3, Outcome.ok_bind, er], nr, r1, r2, r3⟩

theorem lt_ZERO_iff (x : BigInteger) (hx : Normalized x) : (lt x ZERO = true ↔ toInt x < 0) := by
  have h := lt_iff x ZERO hx (by decide)
  have hz : toInt ZERO = 0 := by decide
  rw [hz] at h
  exact h

theorem eq_ZERO_iff (x : BigInteger) (hx : Normalized x) : (eq x ZERO = true ↔ toInt x = 0) := by
  have h := eq_iff_toInt x ZERO hx (by decide)
  have hz : toInt ZERO = 0 := by decide
  rw [hz] at h
  exact h

theorem sqrt_of_neg (x : BigInteger) (hx : Normalized x) (h : toInt x < 0) (fuel n : Nat) :
    sqrt fuel x n = Outcome.thrown Err.sqrtOfNegative := by
  simp only [sqrt, (lt_ZERO_iff x hx).2 h, if_true]

theorem sqrt_of_zero (x : BigInteger) (hx : Normalized x) (h : toInt x = 0) (fuel n : Nat) :
    sqrt fuel x n = Outcome.ok ZERO := by
  have h1 : lt x ZERO = false := by
    by_contra c
    have := (lt_ZERO_iff x hx).1 (by simpa using c)
    omega
  simp only [sqrt, h1, (eq_ZERO_iff x hx).2 h, Bool.false_eq_true, if_false, if_true,
    Outcome.pure_eq]

theorem sqrt_of_pos (x : BigInteger) (hx : Normalized x) (h : 0 < toInt x) (fuel n : Nat) :
    sqrt fuel x n =
      if n = 0 then Outcome.thrown Err.iterationsNotPositive else sqrtLoop fuel x n x := by
  have h1 : lt x ZERO = false := by
    by_contra c
    have := (lt_ZERO_iff x hx).1 (by simpa using c)
    omega
  have h2 : eq x ZERO = false := by
    by_contra c
    have := (eq_ZERO_iff x hx).1 (by simpa using c)
    omega
  simp only [sqrt, h1, h2, Bool.false_eq_true, if_false]

/-- The estimates of `sqrt` for a positive input: after every number of passes the estimate is
a normalized value between 1 and the input whose successor squared exceeds the input. -/
theorem sqrt_estimate (x : BigInteger) (hx : Normalized x) (h : 0 < toInt x) (fuel : Nat)
    (hf : 2 * (toInt x).natAbs < fuel) (k : Nat) :
    ∃ r, sqrtLoop fuel x k x = Outcome.ok r ∧ Normalized r ∧ 1 ≤ toInt r ∧
      toInt r ≤ toInt x ∧ toInt x < (toInt r + 1) * (toInt r + 1) :=
  sqrtLoop_spec x hx (by omega) fuel hf k x hx (by omega) (le_refl _) (by nlinarith)

/-- Claim C11: for a normalized `x`, `x.sqrt(n)` throws for a negative `x` whatever `n`, returns
`ZERO` for `x == ZERO` whatever `n`, throws for a positive `x` with `n == 0`, and returns a value
in every other case, given fuel for its divisions; so it throws exactly when `x` is negative, or
`x` is positive and `n` is 0. -/
theorem sqrt_failure (x : BigInteger) (hx : Normalized x) (n : Nat) :
    (toInt x < 0 → ∀ fuel, sqrt fuel x n = Outcome.thrown Err.sqrtOfNegative) ∧
    (toInt x = 0 → ∀ fuel, sqrt fuel x n = Outcome.ok ZERO) ∧
    (0 < toInt x → n = 0 → ∀ fuel, sqrt fuel x n = Outcome.thrown Err.iterationsNotPositive) ∧
    (0 < toInt x → 0 < n → ∀ fuel, 2 * (toInt x).natAbs < fuel →
      ∃ r, sqrt fuel x n = Outcome.ok r) ∧
    (∀ fuel, 2 * (toInt x).natAbs < fuel →
      ((∃ e, sqrt fuel x n = Outcome.thrown e) ↔ (toInt x < 0 ∨ (0 < toInt x ∧ n = 0)))) := by
  have pos_zero : 0 < toInt x → n = 0 → ∀ fuel,
      sqrt fuel x n = Outcome.thrown Err.iterationsNotPositive := by
    intro h hn fuel
    rw [sqrt_of_pos x hx h, if_pos hn]
  have pos_pos : 0 < toInt x → 0 < n → ∀ fuel, 2 * (toInt x).natAbs < fuel →
      ∃ r, sqrt fuel x n = Outcome.ok r ∧ True := by
    intro h hn fuel hf
    obtain ⟨r, e, -⟩ := sqrt_estimate x hx h fuel hf n
    exact ⟨r, by rw [sqrt_of_pos x hx h, if_neg (by omega), e], trivial⟩
  refine ⟨fun h fuel => sqrt_of_neg x hx h fuel n, fun h fuel => sqrt_of_zero x hx h fuel n,
    pos_zero, fun h hn fuel hf => ?_, fun fuel hf => ⟨?_, ?_⟩⟩
  · obtain ⟨r, e, -⟩ := pos_pos h hn fuel hf
    exact ⟨r, e⟩
  · rintro ⟨e, he⟩
    rcases lt_trichotomy (toInt x) 0 with h | h | h
    · exact Or.inl h
    · rw [sqrt_of_zero x hx h] at he
      exact Outcome.noConfusion he
    · by_cases hn : n = 0
      · exact Or.inr ⟨h, hn⟩
      · obtain ⟨r, e', -⟩ := pos_pos h (by omega) fuel hf
        rw [e'] at he
        exact Outcome.noConfusion he
  · rintro (h | ⟨h, hn⟩)
    · exact ⟨_, sqrt_of_neg x hx h fuel n⟩
    · exact ⟨_, pos_zero h hn fuel⟩

/-- Claim C11 at `x = "9"`, `n = 3`, where `sqrt` returns `"3"`. -/
theorem sqrt_failure_witness :
    Normalized ⟨[9], false⟩ ∧
    ((toInt ⟨[9], false⟩ < 0 → ∀ fuel,
        sqrt fuel ⟨[9], false⟩ 3 = Outcome.thrown Err.sqrtOfNegative) ∧
    (toInt ⟨[9], false⟩ = 0 → ∀ fuel, sqrt fuel ⟨[9], false⟩ 3 = Outcome.ok ZERO) ∧
    (0 < toInt ⟨[9], false⟩ → 3 = 0 → ∀ fuel,
        sqrt fuel ⟨[9], false⟩ 3 = Outcome.thrown Err.iterationsNotPositive) ∧
    (0 < toInt ⟨[9], false⟩ → 0 < 3 → ∀ fuel, 2 * (toInt ⟨[9], false⟩).natAbs < fuel →
      ∃ r, sqrt fuel ⟨[9], false⟩ 3 = Outcome.ok r) ∧
    (∀ fuel, 2 * (toInt ⟨[9], false⟩).natAbs < fuel →
      ((∃ e, sqrt fuel ⟨[9], false⟩ 3 = Outcome.thrown e) ↔
        (toInt ⟨[9], false⟩ < 0 ∨ (0 < toInt ⟨[9], false⟩ ∧ 3 = 0))))) ∧
    sqrt 19 ⟨[9], false⟩ 3 = Outcome.ok ⟨[3], false⟩ ∧
    sqrt 19 ⟨[9], true⟩ 3 = Outcome.thrown Err.sqrtOfNegative ∧
    sqrt 19 ⟨[9], false⟩ 0 = Outcome.thrown Err.iterationsNotPositive ∧
    sqrt 19 ZERO 0 = Outcome.ok ZERO :=
  ⟨by decide, sqrt_failure ⟨[9], false⟩ (by decide) 3, by decide, by decide, by decide,
    by decide⟩

/-- Claim C12 as stated fails at `x = "3"`: the estimates alternate between 2 and 1, and after the
15 passes of the default the result is 2, whose square exceeds 3. -/
theorem sqrt_default_overshoots :
    Normalized ⟨[3], false⟩ ∧ 0 ≤ toInt ⟨[3], false⟩ ∧
    (∀ fuel, sqrt (fuel + 4) ⟨[3], false⟩ defaultIterations = Outcome.ok TWO) ∧
    ¬ (toInt TWO * toInt TWO ≤ toInt ⟨[3], false⟩) ∧
    (∀ fuel, sqrt (fuel + 4) ⟨[3], false⟩ 14 = Outcome.ok ONE) :=
  ⟨by decide, by decide, fun _ => rfl, by decide, fun _ => rfl⟩

/-- Claim C12, amended: for a normalized `x` of non-negative value, `x.sqrt()` with the default
15 passes returns, given fuel for its divisions, a normalized value `r >= 0` that is not below
the square root rounded down: `value(x) < (r + 1) * (r + 1)`. -/
theorem sqrt_default_upper (x : BigInteger) (hx : Normalized x) (hnn : 0 ≤ toInt x)
    (fuel : Nat) (hf : 2 * (toInt x).natAbs < fuel) :
    ∃ r, sqrt fuel x defaultIterations = Outcome.ok r ∧ Normalized r ∧ 0 ≤ toInt r ∧
      toInt x < (toInt r + 1) * (toInt r + 1) := by
  rcases eq_or_lt_of_le hnn with h | h
  · refine ⟨ZERO, sqrt_of_zero x hx h.symm fuel _, by decide, by decide, ?_⟩
    rw [← h]; decide
  · obtain ⟨r, e, nr, r1, -, r3⟩ := sqrt_estimate x hx h fuel hf defaultIterations
    refine ⟨r, ?_, nr, by omega, r3⟩
    rw [sqrt_of_pos x hx h, if_neg (by decide), e]

/-- Claim C12, amended, at `x = "10"`, where the result is `"3"`. -/
theorem sqrt_default_upper_witness :
    Normalized ⟨[1, 0], false⟩ ∧ 0 ≤ toInt ⟨[1, 0], false⟩ ∧
    2 * (toInt ⟨[1, 0], false⟩).natAbs < 21 ∧
    (∃ r, sqrt 21 ⟨[1, 0], false⟩ defaultIterations = Outcome.ok r ∧ Normalized r ∧
      0 ≤ toInt r ∧ toInt ⟨[1, 0], false⟩ < (toInt r + 1) * (toInt r + 1)) ∧
    sqrt 21 ⟨[1, 0], false⟩ defaultIterations = Outcome.ok ⟨[3], false⟩ :=
  ⟨by decide, by decide, by decide,
    sqrt_default_upper ⟨[1, 0], false⟩ (by decide) (by decide) 21 (by decide), by decide⟩

/-- Claim C19: for a positive normalized `x` and fuel for the divisions, the estimate after every
number of passes is a value of at least 1 (so no division of the next pass has a zero divisor),
and for every `n >= 1` `x.sqrt(n)` returns a value `r >= 1` with `(r + 1) * (r + 1) > value(x)`. -/
theorem sqrt_never_below (x : BigInteger) (hx : Normalized x) (hpos : 0 < toInt x)
    (fuel : Nat) (hf : 2 * (toInt x).natAbs < fuel) :
    (∀ k, ∃ c, sqrtLoop fuel x k x = Outcome.ok c ∧ Normalized c ∧ 1 ≤ toInt c ∧
      eq c ZERO = false ∧ (∃ q, div fuel x c = Outcome.ok q)) ∧
    (∀ n, 1 ≤ n → ∃ r, sqrt fuel x n = Outcome.ok r ∧ 1 ≤ toInt r ∧
      (toInt r + 1) * (toInt r + 1) > toInt x) := by
  constructor
  · intro k
    obtain ⟨c, e, nc, c1, c2, -⟩ := sqrt_estimate x hx hpos fuel hf k
    obtain ⟨q, eq1, -⟩ := div_spec x c hx nc (by omega) (by omega) fuel (by omega)
    exact ⟨c, e, nc, c1, eq_ZERO_false c nc (by omega), q, eq1⟩
  · intro n hn
    obtain ⟨r, e, -, r1, -, r3⟩ := sqrt_estimate x hx hpos fuel hf n
    exact ⟨r, by rw [sqrt_of_pos x hx hpos, if_neg (by omega), e], r1, r3⟩

/-- Claim C19 at `x = "10"`, with two passes, where the result is `"3"`. -/
theorem sqrt_never_below_witness :
    Normalized ⟨[1, 0], false⟩ ∧ 0 < toInt ⟨[1, 0], false⟩ ∧
    2 * (toInt ⟨[1, 0], false⟩).natAbs < 21 ∧
    ((∀ k, ∃ c, sqrtLoop 21 ⟨[1, 0], false⟩ k ⟨[1, 0], false⟩ = Outcome.ok c ∧ Normalized c ∧
        1 ≤ toInt c ∧ eq c ZERO = false ∧ (∃ q, div 21 ⟨[1, 0], false⟩ c = Outcome.ok q)) ∧
    (∀ n, 1 ≤ n → ∃ r, sqrt 21 ⟨[1, 0], false⟩ n = Outcome.ok r ∧ 1 ≤ toInt r ∧
      (toInt r + 1) * (toInt r + 1) > toInt ⟨[1, 0], false⟩)) ∧
    sqrt 21 ⟨[1, 0], false⟩ 2 = Outcome.ok ⟨[3], false⟩ :=
  ⟨by decide, by decide, by decide,
    sqrt_never_below ⟨[1, 0], false⟩ (by decide) (by decide) 21 (by decide), by decide⟩

end BigInteger

end ProjectBigInteger
